import Mathlib

/-!
Verification of the DocxRedliner diff engine (`src/diff/diff-engine.ts`).

The engine's data model (`src/types/ast.types.ts`, `src/types/diff.types.ts`,
`src/types/debug.types.ts`) and the `DiffEngine` class are embedded shallowly:
TypeScript interfaces become structures, optional fields become `Option`,
JavaScript numbers used by the engine (similarity scores) become `ℚ`, and the
word-level diff primitive `diffWords` imported from the external `diff` package
is a parameter `wdiff : String → String → List Change` (the engine treats it as
a black box; its documented contract is the structure `WordDifferContract`).

Blocks are JavaScript objects compared by reference in the source
(`Array.prototype.indexOf`); since every block object occupies a unique
position in its document's block array, reference identity is embedded as the
block's index, and the alignment is computed over indices
(`Option Nat × Option Nat`), mapped back to blocks for the assembler.
-/

set_option maxHeartbeats 1000000

/-- Formatting attribute values as compared by the engine: JS booleans, strings
and numbers that can sit in a `TextFormatting` record. -/
inductive FmtValue
  | b : Bool → FmtValue
  | s : String → FmtValue
  | n : ℚ → FmtValue
deriving DecidableEq, Repr

/-- `TextFormatting` from `ast.types.ts`: all six attributes optional
(`none` embeds JS `undefined`). -/
structure TextFormatting where
  bold : Option Bool := none
  italic : Option Bool := none
  underline : Option Bool := none
  color : Option String := none
  font : Option String := none
  fontSize : Option ℚ := none
deriving DecidableEq, Repr

/-- The closed block type tag set from `ast.types.ts`. -/
inductive BlockType
  | paragraph | heading1 | heading2 | heading3 | table | tableRow | pageBreak
deriving DecidableEq, Repr

/-- `TextRun` from `ast.types.ts`. -/
structure TextRun where
  text : String
  formatting : TextFormatting
deriving DecidableEq, Repr

/-- `Block` from `ast.types.ts`. -/
structure Block where
  id : String
  type : BlockType
  text : String
  runs : List TextRun
  formatting : TextFormatting
  tableId : Option String := none
  rowIndex : Option Nat := none
deriving DecidableEq, Repr

/-- `SectionProperties` from `ast.types.ts`. -/
structure SectionProperties where
  columnCount : Option ℚ := none
  columnSpace : Option ℚ := none
deriving DecidableEq, Repr

/-- Document metadata from `ast.types.ts`; the `Date` fields are embedded as
their string representations (informational only, never read by the engine). -/
structure DocMetadata where
  author : Option String := none
  title : Option String := none
  created : Option String := none
  modified : Option String := none
deriving DecidableEq, Repr

/-- `DocumentAST` from `ast.types.ts`. -/
structure DocumentAST where
  metadata : DocMetadata := {}
  blocks : List Block
  sectionProperties : Option SectionProperties := none
deriving DecidableEq, Repr

/-- A word-diff segment: the `Change` type of the external `diff` package as
read by the engine (`value` plus the two status flags; the package's optional
token-count field is never read by the engine and is omitted). -/
structure Change where
  value : String
  added : Bool := false
  removed : Bool := false
deriving DecidableEq, Repr

/-- `GroupedChange` from `diff.types.ts`: either a plain word-diff segment or a
`PhraseReplacement`. -/
inductive GroupedChange
  | word : Change → GroupedChange
  | phraseReplace (deletedText insertedText : String) : GroupedChange
deriving DecidableEq, Repr

/-- `DiffChange` from `diff.types.ts`: a `TextChange` (tags `insert`, `delete`,
`unchanged`) or a `FormatChange` (tag `format-change`); the `changes` record of
a `FormatChange` is embedded as an association list in key-insertion order. -/
inductive DiffChange
  | ins (text : String) (formatting : TextFormatting)
  | del (text : String) (formatting : TextFormatting)
  | unch (text : String) (formatting : TextFormatting)
  | formatChange (text : String) (fromFmt toFmt : TextFormatting)
      (changes : List (String × Option FmtValue × Option FmtValue))
deriving DecidableEq, Repr

/-- Is this `DiffChange` a `format-change` entry? -/
def DiffChange.isFormatChange : DiffChange → Bool
  | .formatChange _ _ _ _ => true
  | _ => false

/-- `DiffType` from `diff.types.ts`. -/
inductive DiffType
  | insert | delete | modify | unchanged
deriving DecidableEq, Repr

/-- `BlockDiff` from `diff.types.ts`; absent optional fields are `none`. -/
structure BlockDiff where
  type : DiffType
  originalBlock : Option Block := none
  currentBlock : Option Block := none
  wordDiff : Option (List Change) := none
  groupedDiff : Option (List GroupedChange) := none
  formatDiff : Option (List DiffChange) := none
  changeId : Option String := none
deriving DecidableEq, Repr

/-- `DocumentDiff` from `diff.types.ts`. -/
structure DocumentDiff where
  blockDiffs : List BlockDiff
  totalChanges : Nat
  sectionProperties : Option SectionProperties := none
deriving DecidableEq, Repr

/-- The match-type tag of `AlignmentDecision` from `debug.types.ts`. -/
inductive MatchType
  | exact | fuzzy | delete | insert
deriving DecidableEq, Repr

/-- `AlignmentDecision` from `debug.types.ts`. -/
structure AlignmentDecision where
  originalIndex : Option Nat
  currentIndex : Option Nat
  matchType : MatchType
  similarityScore : Option ℚ := none
  reason : String
  originalPreview : Option String := none
  currentPreview : Option String := none
deriving DecidableEq, Repr

/-- `DiffResult` from `diff-engine.ts`. -/
structure DiffResult where
  diff : DocumentDiff
  alignmentDecisions : List AlignmentDecision
deriving DecidableEq, Repr

/-- The whitespace class of the JS regexes `\s` used by the engine
(space, tab, line feed, carriage return, vertical tab, form feed). -/
def isWSChar (c : Char) : Bool :=
  c == ' ' || c == '\t' || c == '\n' || c == '\r' || c == '\x0b' || c == '\x0c'

/-- Character-level whitespace splitting: collect the maximal non-whitespace
runs (`acc` holds the current run, reversed). -/
def splitWSAux : List Char → List Char → List String
  | [], acc => if acc = [] then [] else [⟨acc.reverse⟩]
  | c :: cs, acc =>
    if isWSChar c then
      if acc = [] then splitWSAux cs []
      else ⟨acc.reverse⟩ :: splitWSAux cs []
    else splitWSAux cs (c :: acc)

/-- Split a string at whitespace and drop empty pieces: the word list of
`text.split(/\s+/)` applied to trimmed input, and of
`text.trim().split(/\s+/).filter(w => w.length > 0)` in general. -/
def splitWS (t : String) : List String :=
  splitWSAux t.data []

/-- Join words with single spaces. -/
def joinWords : List String → String
  | [] => ""
  | w :: ws => if ws = [] then w else w ++ " " ++ joinWords ws

/-- `normalizeText` from `alignBlocks`: `text.trim().replace(/\s+/g, ' ')`,
i.e. trim plus collapse of each internal whitespace run to a single space;
realized as splitting into words and rejoining with single spaces, which
produces the identical string. -/
def normalizeText (t : String) : String :=
  joinWords (splitWS t)

/-- The JS `String.prototype.trim`: drop leading and trailing whitespace. -/
def trimJS (t : String) : String :=
  ⟨((t.data.dropWhile (fun c => isWSChar c)).reverse.dropWhile
    (fun c => isWSChar c)).reverse⟩

/-- `hashBlock` from `alignBlocks`. -/
def hashBlock (b : Block) : String :=
  normalizeText b.text

/-- `textPreview` from `alignBlocks`: `text.substring(0, 100)` (modelled as
the first 100 characters). -/
def textPreview (t : String) : String :=
  ⟨t.data.take 100⟩

/-- `calculateSimilarity` from `alignBlocks`: 1.0 on equal normalized text,
0.0 if either side is empty, else the Dice coefficient over distinct-word
sets (JS `Set` insertion order = first-occurrence order = `List.dedup`). -/
def calculateSimilarity (b1 b2 : Block) : ℚ :=
  let t1 := normalizeText b1.text
  let t2 := normalizeText b2.text
  if t1 = t2 then 1
  else if t1 = "" ∨ t2 = "" then 0
  else
    let s1 := (splitWS t1).dedup
    let s2 := (splitWS t2).dedup
    let overlap := (s1.filter (fun w => s2.contains w)).length
    (2 * overlap : ℚ) / ((s1.length : ℚ) + (s2.length : ℚ))

/-- Decimal digit characters of `n`, most significant first (reference
rendering used in proofs). -/
def natDigits (n : Nat) : List Char :=
  if h : n < 10 then [Nat.digitChar n]
  else
    have : n / 10 < n := Nat.div_lt_self (by omega) (by omega)
    natDigits (n / 10) ++ [Nat.digitChar (n % 10)]

/-- Fuel-driven loop producing the decimal digits of `n` in front of `acc`;
any `fuel > n` suffices, and the fuel keeps the recursion structural (so that
concrete change ids evaluate by kernel reduction). -/
def natDecimalCore : Nat → Nat → List Char → List Char
  | 0, _, acc => acc
  | fuel + 1, n, acc =>
    if n < 10 then Nat.digitChar n :: acc
    else natDecimalCore fuel (n / 10) (Nat.digitChar (n % 10) :: acc)

/-- Decimal rendering of a natural number (the rendering JS performs when a
number is spliced into a template literal). -/
def natDecimal (n : Nat) : String :=
  ⟨natDecimalCore (n + 1) n []⟩

/-- The JS `x.toFixed(1)` formatting used in decision reason strings, modelled
over exact rationals (round to nearest tenth, render with one decimal);
only ever applied to non-negative scores. -/
def toFixed1 (q : ℚ) : String :=
  let n : Nat := (round (q * 10) : ℤ).toNat
  natDecimal (n / 10) ++ "." ++ natDecimal (n % 10)

/-- The exact-match `AlignmentDecision` pushed in the first pass of
`alignBlocks`. -/
def exactDecision (origIndex currIndex : Nat) (origBlock currBlock : Block) :
    AlignmentDecision where
  originalIndex := some origIndex
  currentIndex := some currIndex
  matchType := .exact
  similarityScore := some 1
  reason := "Exact text match after whitespace normalization"
  originalPreview := some (textPreview origBlock.text)
  currentPreview := some (textPreview currBlock.text)

/-- The fuzzy-match `AlignmentDecision` pushed in the second pass of
`alignBlocks`. -/
def fuzzyDecision (origIndex currIndex : Nat) (origBlock currBlock : Block)
    (similarity : ℚ) : AlignmentDecision :=
  let pct := toFixed1 (similarity * 100)
  { originalIndex := some origIndex
    currentIndex := some currIndex
    matchType := .fuzzy
    similarityScore := some similarity
    reason := s!"Fuzzy match: {pct}% word overlap (threshold: 50%)"
    originalPreview := some (textPreview origBlock.text)
    currentPreview := some (textPreview currBlock.text) }

/-- The delete `AlignmentDecision` pushed in the second pass of `alignBlocks`;
`best` is the `(bestSimilarity, bestCandidateIndex)` pair of its diagnostic
scan. -/
def deleteDecision (origIndex : Nat) (origBlock : Block) (best : ℚ × Option Nat) :
    AlignmentDecision :=
  let pct := toFixed1 (best.1 * 100)
  { originalIndex := some origIndex
    currentIndex := none
    matchType := .delete
    similarityScore := if best.1 > 0 then some best.1 else none
    reason :=
      match best.2 with
      | some _ => s!"No match found. Best candidate had {pct}% similarity (below 50% threshold)"
      | none => "No match found. No unmatched candidates remaining"
    originalPreview := some (textPreview origBlock.text) }

/-- The insert `AlignmentDecision` pushed for leftover current blocks. -/
def insertDecision (currIndex : Nat) (currBlock : Block) : AlignmentDecision where
  originalIndex := none
  currentIndex := some currIndex
  matchType := .insert
  reason := "No matching block in original document"
  currentPreview := some (textPreview currBlock.text)

/-- The `currentMap` lookup of `alignBlocks`: the current blocks whose hash is
`h`, with their indices, in document order (JS builds this by pushing blocks
into a hash-keyed multimap while walking `currentBlocks`; the engine then
recovers each block's index with `indexOf`, which under reference identity is
exactly the position recorded here). -/
def matchesForAux (h : String) : List Block → Nat → List (Nat × Block)
  | [], _ => []
  | b :: rest, i =>
    if hashBlock b = h then (i, b) :: matchesForAux h rest (i + 1)
    else matchesForAux h rest (i + 1)

/-- All `(index, block)` matches of hash `h` among the current blocks. -/
def matchesFor (currentBlocks : List Block) (h : String) : List (Nat × Block) :=
  matchesForAux h currentBlocks 0

/-- Result of the exact-matching first pass of `alignBlocks`. -/
structure ExactResult where
  alignment : List (Option Nat × Option Nat)
  decisions : List AlignmentDecision
  used : List Nat
  unmatched : List (Nat × Block)
deriving Repr

/-- First pass of `alignBlocks`: walk the original blocks (starting at index
`i`) in order; pair each with its first unused exact hash match, otherwise
carry it to `unmatched`. -/
def exactGo (currentBlocks : List Block) :
    List Block → Nat → List Nat → ExactResult
  | [], _, used => ⟨[], [], used, []⟩
  | b :: rest, i, used =>
    match (matchesFor currentBlocks (hashBlock b)).find?
        (fun p => !(used.contains p.1)) with
    | some p =>
      let r := exactGo currentBlocks rest (i + 1) (used ++ [p.1])
      ⟨(some i, some p.1) :: r.alignment,
        exactDecision i p.1 b p.2 :: r.decisions, r.used, r.unmatched⟩
    | none =>
      let r := exactGo currentBlocks rest (i + 1) used
      ⟨r.alignment, r.decisions, r.used, (i, b) :: r.unmatched⟩

/-- `SIMILARITY_THRESHOLD` from `alignBlocks`: 0.5 (written as a normalized
rational so that concrete threshold comparisons evaluate by kernel
reduction). -/
def SIMILARITY_THRESHOLD : ℚ := mkRat 1 2

/-- The best-match scan of the fuzzy pass: walk the current blocks (with
running index `j`, accumulator `best`), skip used ones, and keep the first
candidate of maximal similarity among those reaching the threshold. -/
def bestFuzzyAux (used : List Nat) (origBlock : Block) :
    List Block → Nat → Option (Nat × Block × ℚ) → Option (Nat × Block × ℚ)
  | [], _, best => best
  | c :: rest, j, best =>
    if used.contains j then bestFuzzyAux used origBlock rest (j + 1) best
    else
      let sim := calculateSimilarity origBlock c
      if sim ≥ SIMILARITY_THRESHOLD then
        match best with
        | none => bestFuzzyAux used origBlock rest (j + 1) (some (j, c, sim))
        | some q =>
          if sim > q.2.2 then bestFuzzyAux used origBlock rest (j + 1) (some (j, c, sim))
          else bestFuzzyAux used origBlock rest (j + 1) best
      else bestFuzzyAux used origBlock rest (j + 1) best

/-- `bestMatch` of the fuzzy pass over all current blocks. -/
def bestFuzzy (currentBlocks : List Block) (used : List Nat) (origBlock : Block) :
    Option (Nat × Block × ℚ) :=
  bestFuzzyAux used origBlock currentBlocks 0 none

/-- The diagnostic best-candidate scan used when recording a delete decision:
the best strict-improvement similarity (starting from 0) and its index. -/
def bestCandidateAux (used : List Nat) (origBlock : Block) :
    List Block → Nat → ℚ × Option Nat → ℚ × Option Nat
  | [], _, acc => acc
  | c :: rest, j, acc =>
    if used.contains j then bestCandidateAux used origBlock rest (j + 1) acc
    else
      let sim := calculateSimilarity origBlock c
      if sim > acc.1 then bestCandidateAux used origBlock rest (j + 1) (sim, some j)
      else bestCandidateAux used origBlock rest (j + 1) acc

/-- The `(bestSimilarity, bestCandidateIndex)` pair recorded with a delete
decision. -/
def bestCandidate (currentBlocks : List Block) (used : List Nat) (origBlock : Block) :
    ℚ × Option Nat :=
  bestCandidateAux used origBlock currentBlocks 0 (0, none)

/-- Result of the fuzzy second pass of `alignBlocks`. -/
structure FuzzyResult where
  alignment : List (Option Nat × Option Nat)
  decisions : List AlignmentDecision
  used : List Nat
deriving Repr

/-- Second pass of `alignBlocks`: for each original block left unmatched, pair
it with its best unused fuzzy candidate at or above the threshold, else record
it as a delete pairing. -/
def fuzzyGo (currentBlocks : List Block) :
    List (Nat × Block) → List Nat → FuzzyResult
  | [], used => ⟨[], [], used⟩
  | (i, b) :: rest, used =>
    match bestFuzzy currentBlocks used b with
    | some (j, c, sim) =>
      let r := fuzzyGo currentBlocks rest (used ++ [j])
      ⟨(some i, some j) :: r.alignment,
        fuzzyDecision i j b c sim :: r.decisions, r.used⟩
    | none =>
      let r := fuzzyGo currentBlocks rest used
      ⟨(some i, none) :: r.alignment,
        deleteDecision i b (bestCandidate currentBlocks used b) :: r.decisions, r.used⟩

/-- Third step of `alignBlocks`: every current block never marked used becomes
an insert pairing, in current-document order (running index `j`). -/
def insertGo (used : List Nat) :
    List Block → Nat → List (Option Nat × Option Nat) × List AlignmentDecision
  | [], _ => ([], [])
  | b :: rest, j =>
    let r := insertGo used rest (j + 1)
    if used.contains j then r
    else ((none, some j) :: r.1, insertDecision j b :: r.2)

/-- The sort key of the final ordering of `alignBlocks`: original-document
index, with JS `Infinity` for a missing side embedded as `⊤`, tie-broken by
current-document index. -/
def pairKey (p : Option Nat × Option Nat) : WithTop Nat × WithTop Nat :=
  (p.1.elim ⊤ (fun i => (i : WithTop Nat)), p.2.elim ⊤ (fun j => (j : WithTop Nat)))

/-- Strict comparison of optional indices with a missing index as
JS `Infinity`. -/
def idxKeyLT : Option Nat → Option Nat → Bool
  | some _, none => true
  | none, _ => false
  | some i, some j => decide (i < j)

/-- Non-strict comparison of optional indices with a missing index as
JS `Infinity`. -/
def idxKeyLE : Option Nat → Option Nat → Bool
  | _, none => true
  | none, some _ => false
  | some i, some j => decide (i ≤ j)

/-- The comparator of `alignment.sort` as a boolean ≤ relation: lexicographic
by original index (missing = `Infinity`), then by current index. -/
def pairLE (a b : Option Nat × Option Nat) : Bool :=
  if a.1 = b.1 then idxKeyLE a.2 b.2 else idxKeyLT a.1 b.1

/-- `pairLE` as a relation, for sorting. -/
def pairRel (a b : Option Nat × Option Nat) : Prop :=
  pairLE a b = true

instance : DecidableRel pairRel :=
  fun a b => inferInstanceAs (Decidable (_ = _))

instance : IsTotal (Option Nat × Option Nat) pairRel where
  total a b := by
    obtain ⟨a1, a2⟩ := a
    obtain ⟨b1, b2⟩ := b
    unfold pairRel pairLE
    by_cases h : a1 = b1
    · subst h
      simp only [if_pos rfl]
      rcases a2 with _ | i <;> rcases b2 with _ | j <;> simp [idxKeyLE] <;> omega
    · simp only [if_neg h, if_neg (fun hh : b1 = a1 => h hh.symm)]
      rcases a1 with _ | i <;> rcases b1 with _ | j
      · exact absurd rfl h
      · simp [idxKeyLT]
      · simp [idxKeyLT]
      · have hij : i ≠ j := by simpa using h
        simp only [idxKeyLT, decide_eq_true_eq]
        omega

instance : IsTrans (Option Nat × Option Nat) pairRel where
  trans a b c hab hbc := by
    obtain ⟨a1, a2⟩ := a
    obtain ⟨b1, b2⟩ := b
    obtain ⟨c1, c2⟩ := c
    unfold pairRel pairLE at hab hbc ⊢
    simp only at hab hbc ⊢
    by_cases h1 : a1 = b1 <;> by_cases h2 : b1 = c1
    · subst h1
      subst h2
      rw [if_pos rfl] at hab hbc ⊢
      rcases a2 with _ | i <;> rcases b2 with _ | j <;> rcases c2 with _ | k <;>
        simp_all [idxKeyLE] <;> omega
    · subst h1
      rw [if_pos rfl] at hab
      rw [if_neg h2] at hbc ⊢
      exact hbc
    · subst h2
      rw [if_neg h1] at hab
      rw [if_neg h1]
      exact hab
    · rw [if_neg h1] at hab
      rw [if_neg h2] at hbc
      by_cases h3 : a1 = c1
      · exfalso
        subst h3
        rcases a1 with _ | i <;> rcases b1 with _ | j <;> simp_all [idxKeyLT] <;> omega
      · rw [if_neg h3]
        rcases a1 with _ | i <;> rcases b1 with _ | j <;> rcases c1 with _ | k <;>
          simp_all [idxKeyLT] <;> omega

/-- `alignBlocks` from `diff-engine.ts`: exact pass, fuzzy pass, leftover
inserts, then the final sort by original-document order (the JS comparator
defines the total order `pairLE`, antisymmetric on the distinct keys of the
pairings, so any correct sort — here an insertion sort — produces the
JS `Array.prototype.sort` output). -/
def alignBlocks (originalBlocks currentBlocks : List Block) :
    List (Option Nat × Option Nat) × List AlignmentDecision :=
  let ex := exactGo currentBlocks originalBlocks 0 []
  let fz := fuzzyGo currentBlocks ex.unmatched ex.used
  let ins := insertGo fz.used currentBlocks 0
  (List.insertionSort pairRel (ex.alignment ++ fz.alignment ++ ins.1),
    ex.decisions ++ fz.decisions ++ ins.2)

/-- The fixed attribute key list of `compareFormatting`. -/
def formattingKeys : List String :=
  ["bold", "italic", "underline", "color", "font", "fontSize"]

/-- The dynamic attribute access `fmt[key]` of `compareFormatting`: the value
of the named attribute, `none` for an absent attribute (JS `undefined`). -/
def fmtGet (f : TextFormatting) : String → Option FmtValue
  | "bold" => f.bold.map .b
  | "italic" => f.italic.map .b
  | "underline" => f.underline.map .b
  | "color" => f.color.map .s
  | "font" => f.font.map .s
  | "fontSize" => f.fontSize.map .n
  | _ => none

/-- `compareFormatting` from `diff-engine.ts`: walk the six keys, record each
differing attribute with its before/after pair, flag whether any differed. -/
def compareFormatting (fmt1 fmt2 : TextFormatting) :
    Bool × List (String × Option FmtValue × Option FmtValue) :=
  formattingKeys.foldl
    (fun acc key =>
      if fmtGet fmt1 key ≠ fmtGet fmt2 key then
        (true, acc.2 ++ [(key, fmtGet fmt1 key, fmtGet fmt2 key)])
      else acc)
    (false, [])

/-- `formatingsEqual` from `diff-engine.ts` (source spelling kept): field-wise
strict equality of the six attributes. -/
def formatingsEqual (fmt1 fmt2 : TextFormatting) : Bool :=
  fmt1.bold == fmt2.bold &&
  fmt1.italic == fmt2.italic &&
  fmt1.underline == fmt2.underline &&
  fmt1.color == fmt2.color &&
  fmt1.font == fmt2.font &&
  fmt1.fontSize == fmt2.fontSize

/-- `diffFormatting` from `diff-engine.ts`: one `DiffChange` per word-diff
segment; added segments carry the current formatting, removed segments the
original formatting, unchanged segments compare the two block formattings. -/
def diffFormatting (origBlock currBlock : Block) (wordDiff : List Change) :
    List DiffChange :=
  wordDiff.map (fun change =>
    if change.added then .ins change.value currBlock.formatting
    else if change.removed then .del change.value origBlock.formatting
    else
      let fd := compareFormatting origBlock.formatting currBlock.formatting
      if fd.1 then
        .formatChange change.value origBlock.formatting currBlock.formatting fd.2
      else .unch change.value origBlock.formatting)

/-- `GROUPING_CONFIG.CHANGE_DENSITY_THRESHOLD`: 0.6 (as a normalized
rational). -/
def CHANGE_DENSITY_THRESHOLD : ℚ := mkRat 3 5

/-- `GROUPING_CONFIG.MIN_CHANGED_WORDS`. -/
def MIN_CHANGED_WORDS : Nat := 3

/-- `GROUPING_CONFIG.MAX_UNCHANGED_GAP`. -/
def MAX_UNCHANGED_GAP : Nat := 1

/-- Word count of one segment value:
`c.value.trim().split(/\s+/).filter(w => w.length > 0).length`. -/
def segWordCount (s : String) : Nat :=
  (splitWS s).length

/-- The scanning loop of `findChangeSpan`: how many segments of the suffix
belong to the span, given the unchanged-word gap accumulated since the last
changed segment; a changed segment resets the gap, an unchanged segment
pushing the gap beyond `MAX_UNCHANGED_GAP` ends the span before itself. -/
def findSpanEnd : List Change → Nat → Nat
  | [], _ => 0
  | c :: rest, gap =>
    if c.added || c.removed then 1 + findSpanEnd rest 0
    else
      let w := segWordCount c.value
      if gap + w > MAX_UNCHANGED_GAP then 0
      else 1 + findSpanEnd rest (gap + w)

/-- `findChangeSpan` from `diff-engine.ts`, on the suffix starting at the scan
position: the span (`wordDiff.slice(start, end)`) and the remaining suffix. -/
def findChangeSpan (l : List Change) : List Change × List Change :=
  (l.take (findSpanEnd l 0), l.drop (findSpanEnd l 0))

/-- Total word count of a span (`totalWords` of `shouldGroup`). -/
def spanTotalWords (span : List Change) : Nat :=
  (span.map (fun c => segWordCount c.value)).sum

/-- Changed word count of a span (`changedWords` of `shouldGroup`). -/
def spanChangedWords (span : List Change) : Nat :=
  ((span.filter (fun c => c.added || c.removed)).map (fun c => segWordCount c.value)).sum

/-- `shouldGroup` from `diff-engine.ts`: density gate and minimum changed-word
gate. -/
def shouldGroup (span : List Change) : Bool :=
  let totalWords := spanTotalWords span
  let changedWords := spanChangedWords span
  let density : ℚ := if totalWords > 0 then (changedWords : ℚ) / (totalWords : ℚ) else 0
  density ≥ CHANGE_DENSITY_THRESHOLD && changedWords ≥ MIN_CHANGED_WORDS

/-- The collection loop of `groupConsecutiveChanges` over an accepted span:
removed values go to the deleted parts, added values to the inserted parts,
unchanged values verbatim to both. -/
def collectParts : List Change → List String × List String
  | [] => ([], [])
  | c :: rest =>
    let r := collectParts rest
    if c.removed then (c.value :: r.1, r.2)
    else if c.added then (r.1, c.value :: r.2)
    else (c.value :: r.1, c.value :: r.2)

/-- The scan loop of `groupConsecutiveChanges`, with a structural fuel (any
fuel at least the list length suffices; a changed head consumes at least one
segment, so the fuel is never exhausted): pass unchanged segments through; at
a changed segment find the change span, and either emit one phrase
replacement (joined, trimmed deleted/inserted parts) consuming the span, or
pass the segment through and continue at the next position. -/
def groupGo : Nat → List Change → List GroupedChange
  | 0, _ => []
  | _ + 1, [] => []
  | fuel + 1, c :: rest =>
    if c.added || c.removed then
      let span := findChangeSpan (c :: rest)
      if shouldGroup span.1 then
        .phraseReplace (trimJS (String.join (collectParts span.1).1))
            (trimJS (String.join (collectParts span.1).2))
          :: groupGo fuel span.2
      else .word c :: groupGo fuel rest
    else .word c :: groupGo fuel rest

/-- `groupConsecutiveChanges` from `diff-engine.ts`. -/
def groupConsecutiveChanges (l : List Change) : List GroupedChange :=
  groupGo l.length l

/-- The change-id string `change-${n}` of the assembler. -/
def changeIdStr (n : Nat) : String :=
  "change-" ++ natDecimal n

/-- The `alignment.forEach` assembly loop of `diffDocumentsWithDebug`: build
the `BlockDiff` list and thread the `changeId` counter (a pairing with
neither side contributes nothing; `alignBlocks` never produces one). -/
def mkBlockDiffs (wdiff : String → String → List Change) :
    List (Option Block × Option Block) → Nat → List BlockDiff × Nat
  | [], n => ([], n)
  | (none, none) :: rest, n => mkBlockDiffs wdiff rest n
  | (none, some currBlock) :: rest, n =>
    let r := mkBlockDiffs wdiff rest (n + 1)
    ({ type := .insert, currentBlock := some currBlock,
       changeId := some (changeIdStr n) } :: r.1, r.2)
  | (some origBlock, none) :: rest, n =>
    let r := mkBlockDiffs wdiff rest (n + 1)
    ({ type := .delete, originalBlock := some origBlock,
       changeId := some (changeIdStr n) } :: r.1, r.2)
  | (some origBlock, some currBlock) :: rest, n =>
    if origBlock.text = currBlock.text ∧
        formatingsEqual origBlock.formatting currBlock.formatting = true then
      let r := mkBlockDiffs wdiff rest n
      ({ type := .unchanged, originalBlock := some origBlock,
         currentBlock := some currBlock } :: r.1, r.2)
    else
      let wd := wdiff origBlock.text currBlock.text
      let gd := groupConsecutiveChanges wd
      let fd := diffFormatting origBlock currBlock wd
      let hasChanges := wd.any (fun ch => ch.added || ch.removed) ||
        fd.any (fun fc => fc.isFormatChange)
      let r := mkBlockDiffs wdiff rest (if hasChanges then n + 1 else n)
      ({ type := if hasChanges then .modify else .unchanged,
         originalBlock := some origBlock, currentBlock := some currBlock,
         wordDiff := some wd, groupedDiff := some gd, formatDiff := some fd,
         changeId := if hasChanges then some (changeIdStr n) else none } :: r.1,
        r.2)

/-- Map an index pairing back to the referenced blocks (reference identity =
position, see the header comment). -/
def toBlockPair (originalBlocks currentBlocks : List Block)
    (p : Option Nat × Option Nat) : Option Block × Option Block :=
  (p.1.bind originalBlocks.get?, p.2.bind currentBlocks.get?)

/-- The `DiffEngine` class state: the one instance field. -/
structure DiffEngine where
  debugMode : Bool := false
deriving DecidableEq, Repr

/-- `DiffEngine.setDebugMode`. -/
def DiffEngine.setDebugMode (e : DiffEngine) (enabled : Bool) : DiffEngine :=
  { e with debugMode := enabled }

/-- `DiffEngine.isDebugMode`. -/
def DiffEngine.isDebugMode (e : DiffEngine) : Bool :=
  e.debugMode

/-- `DiffEngine.diffDocumentsWithDebug`: align, assemble, return diff plus
decisions; `wdiff` is the imported external `diffWords` primitive. -/
def DiffEngine.diffDocumentsWithDebug (e : DiffEngine)
    (wdiff : String → String → List Change)
    (originalAST currentAST : DocumentAST) : DiffResult :=
  let al := alignBlocks originalAST.blocks currentAST.blocks
  let pairs := al.1.map (toBlockPair originalAST.blocks currentAST.blocks)
  let r := mkBlockDiffs wdiff pairs 0
  { diff := { blockDiffs := r.1, totalChanges := r.2,
              sectionProperties := currentAST.sectionProperties }
    alignmentDecisions := al.2 }

/-- `DiffEngine.diffDocuments`. -/
def DiffEngine.diffDocuments (e : DiffEngine)
    (wdiff : String → String → List Change)
    (originalAST currentAST : DocumentAST) : DocumentDiff :=
  (e.diffDocumentsWithDebug wdiff originalAST currentAST).diff

/-- The §4.2 black-box contract of the external word differ: every segment has
at most one status flag, the non-added segments concatenate to the original
string, the non-removed segments to the current string, and diffing a string
against itself yields only unchanged segments (minimality at distance 0). -/
structure WordDifferContract (wdiff : String → String → List Change) : Prop where
  oneStatus : ∀ t1 t2 c, c ∈ wdiff t1 t2 → ¬(c.added = true ∧ c.removed = true)
  reconOriginal : ∀ t1 t2,
    String.join (((wdiff t1 t2).filter (fun c => !c.added)).map (fun c => c.value)) = t1
  reconCurrent : ∀ t1 t2,
    String.join (((wdiff t1 t2).filter (fun c => !c.removed)).map (fun c => c.value)) = t2
  selfUnchanged : ∀ t c, c ∈ wdiff t t → c.added = false ∧ c.removed = false

/-- Modelled from the spec: a minimal word differ satisfying the §4.2
black-box contract (the real `diffWords` lives in the external `diff` package,
outside this repository), used to instantiate witnesses. Equal inputs yield
the single unchanged segment (the identity fast path), unequal inputs one
removed plus one added segment. -/
def wdiffModel (t1 t2 : String) : List Change :=
  if t1 = t2 then [{ value := t1 }]
  else [{ value := t1, removed := true }, { value := t2, added := true }]


/-- Spec-side (§4.3) Dice coefficient over the sets of distinct normalized
words, with the stated 1.0 and 0.0 special cases; compared against
`calculateSimilarity` for the refinement part of the fuzzy-pass claim. -/
def diceSpecSimilarity (b1 b2 : Block) : ℚ :=
  let t1 := normalizeText b1.text
  let t2 := normalizeText b2.text
  if t1 = t2 then 1
  else if t1 = "" ∨ t2 = "" then 0
  else
    let S1 := (splitWS t1).toFinset
    let S2 := (splitWS t2).toFinset
    (2 * ((S1 ∩ S2).card : ℚ)) / ((S1.card : ℚ) + (S2.card : ℚ))

/-- Spec-side (§8) text recovered from a `BlockDiff`: prefer `originalBlock`,
fall back to `currentBlock`. -/
def recoveredText (bd : BlockDiff) : Option String :=
  (bd.originalBlock.or bd.currentBlock).map Block.text

/-- Spec-side (§4.3 step 5) ordering of pairings: by original-document index
with missing sides as `+infinity`, ties broken by current-document index. -/
def specOrder (a b : Option Nat × Option Nat) : Prop :=
  (pairKey a).1 < (pairKey b).1 ∨
    ((pairKey a).1 = (pairKey b).1 ∧ (pairKey a).2 ≤ (pairKey b).2)

/-- A concrete sample block used by witnesses. -/
def sampleBlockA : Block :=
  { id := "a", type := .paragraph, text := "alpha", runs := [], formatting := {} }

/-- A second concrete sample block used by witnesses. -/
def sampleBlockB : Block :=
  { id := "b", type := .paragraph, text := "beta", runs := [], formatting := {} }

/-- A one-block sample document used by witnesses. -/
def sampleDocA : DocumentAST := { blocks := [sampleBlockA] }

/-- Another one-block sample document used by witnesses. -/
def sampleDocB : DocumentAST := { blocks := [sampleBlockB] }

/-- The empty sample document used by witnesses. -/
def sampleDocEmpty : DocumentAST := { blocks := [] }

/-- A sample block with plain formatting, used by the C4 witness. -/
def boldBlockO : Block :=
  { id := "o", type := .paragraph, text := "Bold me", runs := [], formatting := {} }

/-- The same text with bold formatting, used by the C4 witness. -/
def boldBlockC : Block :=
  { id := "c", type := .paragraph, text := "Bold me", runs := [],
    formatting := { bold := some true } }

/-- The model word differ satisfies the contract. -/
theorem wdiffModel_contract : WordDifferContract wdiffModel := by
  constructor
  · intro t1 t2 c hc
    unfold wdiffModel at hc
    split at hc <;> simp_all <;> rcases hc with h | h <;> simp [h]
  · intro t1 t2
    unfold wdiffModel
    split <;> simp_all [String.join]
  · intro t1 t2
    unfold wdiffModel
    split <;> simp_all [String.join]
  · intro t c hc
    unfold wdiffModel at hc
    simp_all

/-- Unfolding lemma: the `compareFormatting` fold over any key list is the
differing-key filter, and the flag is the existence of a differing key. -/
theorem compareFormatting_foldl (f1 f2 : TextFormatting) :
    ∀ (ks : List String) (b : Bool) (acc : List (String × Option FmtValue × Option FmtValue)),
    List.foldl
      (fun acc key =>
        if fmtGet f1 key ≠ fmtGet f2 key then
          (true, acc.2 ++ [(key, fmtGet f1 key, fmtGet f2 key)])
        else acc)
      (b, acc) ks =
    (b || ks.any (fun k => decide (fmtGet f1 k ≠ fmtGet f2 k)),
      acc ++ ks.filterMap (fun k =>
        if fmtGet f1 k ≠ fmtGet f2 k then some (k, fmtGet f1 k, fmtGet f2 k) else none))
  | [], b, acc => by simp
  | k :: ks, b, acc => by
    by_cases h : fmtGet f1 k = fmtGet f2 k
    · rw [List.foldl_cons, if_neg (not_not_intro h),
        compareFormatting_foldl f1 f2 ks b acc]
      simp [h]
    · rw [List.foldl_cons, if_pos h,
        compareFormatting_foldl f1 f2 ks true (acc ++ [(k, fmtGet f1 k, fmtGet f2 k)])]
      simp [h]

/-- Canonical form of `compareFormatting`. -/
theorem compareFormatting_eq (f1 f2 : TextFormatting) :
    compareFormatting f1 f2 =
      (formattingKeys.any (fun k => decide (fmtGet f1 k ≠ fmtGet f2 k)),
        formattingKeys.filterMap (fun k =>
          if fmtGet f1 k ≠ fmtGet f2 k then some (k, fmtGet f1 k, fmtGet f2 k) else none)) := by
  unfold compareFormatting
  rw [compareFormatting_foldl f1 f2 formattingKeys false []]
  simp

/-- The key projection of the differing-key filterMap is the differing-key
filter, over any key list. -/
theorem map_fst_cf_filterMap (f1 f2 : TextFormatting) :
    ∀ ks : List String,
    (ks.filterMap (fun k =>
      if fmtGet f1 k ≠ fmtGet f2 k then some (k, fmtGet f1 k, fmtGet f2 k) else none)).map
        Prod.fst =
    ks.filter (fun k => decide (fmtGet f1 k ≠ fmtGet f2 k))
  | [] => by simp
  | k :: ks => by
    by_cases h : fmtGet f1 k = fmtGet f2 k
    · rw [List.filterMap_cons_none
          (f := fun k => if fmtGet f1 k ≠ fmtGet f2 k then
            some (k, fmtGet f1 k, fmtGet f2 k) else none)
          (if_neg (not_not_intro h)),
        List.filter_cons_of_neg (by simpa using h),
        map_fst_cf_filterMap f1 f2 ks]
    · rw [List.filterMap_cons_some
          (f := fun k => if fmtGet f1 k ≠ fmtGet f2 k then
            some (k, fmtGet f1 k, fmtGet f2 k) else none)
          (if_pos h),
        List.filter_cons_of_pos (by simpa using h),
        List.map_cons, map_fst_cf_filterMap f1 f2 ks]

/-- C8: the formatting comparator flags a change iff one of the six fixed
attributes differs by value equality (with an absent attribute a comparable
value of its own), and its changes list names exactly the differing
attributes, in key order, each with its before/after pair; no other attribute
is ever reported. -/
theorem formatting_comparator_exact (f1 f2 : TextFormatting) :
    ((compareFormatting f1 f2).1 = true ↔
      ∃ k ∈ formattingKeys, fmtGet f1 k ≠ fmtGet f2 k) ∧
    ((compareFormatting f1 f2).2.map Prod.fst =
      formattingKeys.filter (fun k => decide (fmtGet f1 k ≠ fmtGet f2 k))) ∧
    (∀ k u v, (k, u, v) ∈ (compareFormatting f1 f2).2 ↔
      (k ∈ formattingKeys ∧ fmtGet f1 k ≠ fmtGet f2 k ∧
        u = fmtGet f1 k ∧ v = fmtGet f2 k)) := by
  rw [compareFormatting_eq]
  refine ⟨by simp, map_fst_cf_filterMap f1 f2 formattingKeys, ?_⟩
  intro k u v
  simp only [List.mem_filterMap]
  constructor
  · rintro ⟨k', hk', hg⟩
    by_cases h : fmtGet f1 k' = fmtGet f2 k'
    · simp [h] at hg
    · rw [if_pos h] at hg
      simp only [Option.some.injEq, Prod.mk.injEq] at hg
      obtain ⟨rfl, rfl, rfl⟩ := hg
      exact ⟨hk', h, rfl, rfl⟩
  · rintro ⟨hk, hne, rfl, rfl⟩
    exact ⟨k, hk, by rw [if_pos hne]⟩

/-- C10: the debug-mode flag has no effect on results — the engine returns the
same `DiffResult` (diff and alignment decisions) whatever `setDebugMode` set,
any two engine states agree, and two invocations on equal inputs agree. -/
theorem debug_mode_no_effect (e : DiffEngine) (wdiff : String → String → List Change)
    (o c : DocumentAST) :
    ((e.setDebugMode true).diffDocumentsWithDebug wdiff o c =
      (e.setDebugMode false).diffDocumentsWithDebug wdiff o c) ∧
    ((e.setDebugMode true).diffDocuments wdiff o c =
      (e.setDebugMode false).diffDocuments wdiff o c) ∧
    (∀ e1 e2 : DiffEngine, e1.diffDocumentsWithDebug wdiff o c =
      e2.diffDocumentsWithDebug wdiff o c) ∧
    (∀ o' c' : DocumentAST, o' = o → c' = c →
      e.diffDocumentsWithDebug wdiff o' c' = e.diffDocumentsWithDebug wdiff o c) := by
  refine ⟨rfl, rfl, fun e1 e2 => rfl, fun o' c' ho hc => by rw [ho, hc]⟩

/-- Witness for C10 at a concrete engine state and concrete documents. -/
theorem debug_mode_no_effect_witness :
    ({ debugMode := false : DiffEngine }.setDebugMode true).diffDocumentsWithDebug
        wdiffModel { blocks := [] } { blocks := [] } =
      ({ debugMode := false : DiffEngine }.setDebugMode false).diffDocumentsWithDebug
        wdiffModel { blocks := [] } { blocks := [] } :=
  (debug_mode_no_effect { debugMode := false } wdiffModel
    { blocks := [] } { blocks := [] }).1

/-- Unfolding of `natDigits` below 10. -/
theorem natDigits_small {n : Nat} (h : n < 10) :
    natDigits n = [Nat.digitChar n] := by
  unfold natDigits
  rw [dif_pos h]

/-- Unfolding of `natDigits` from 10 up. -/
theorem natDigits_large {n : Nat} (h : ¬ n < 10) :
    natDigits n = natDigits (n / 10) ++ [Nat.digitChar (n % 10)] := by
  conv_lhs => unfold natDigits
  rw [dif_neg h]

/-- A decimal rendering is never empty. -/
theorem natDigits_length_pos (n : Nat) : 0 < (natDigits n).length := by
  by_cases h : n < 10
  · rw [natDigits_small h]; simp
  · rw [natDigits_large h]; simp

/-- The fuel-driven digit loop computes `natDigits` when the fuel covers the
input. -/
theorem natDecimalCore_eq :
    ∀ (fuel n : Nat) (acc : List Char), n < fuel →
      natDecimalCore fuel n acc = natDigits n ++ acc := by
  intro fuel
  induction fuel with
  | zero => intro n acc h; omega
  | succ f ih =>
    intro n acc h
    by_cases h10 : n < 10
    · show (if n < 10 then _ else _) = _
      rw [if_pos h10, natDigits_small h10]
      rfl
    · show (if n < 10 then _ else _) = _
      rw [if_neg h10, ih (n / 10) _ (by omega), natDigits_large h10]
      simp

/-- `natDecimal` renders the reference digit list. -/
theorem natDecimal_eq_digits (n : Nat) : natDecimal n = ⟨natDigits n⟩ := by
  unfold natDecimal
  rw [natDecimalCore_eq (n + 1) n [] (by omega)]
  simp

/-- `Nat.digitChar` is injective below 10. -/
theorem digitChar_inj_lt :
    ∀ a : Nat, a < 10 → ∀ b : Nat, b < 10 →
      Nat.digitChar a = Nat.digitChar b → a = b := by decide

/-- The digit-list rendering is injective. -/
theorem natDigits_inj :
    ∀ m : Nat, ∀ n : Nat, natDigits m = natDigits n → m = n := by
  intro m
  induction m using Nat.strong_induction_on with
  | _ m ih =>
    intro n h
    by_cases hm : m < 10 <;> by_cases hn : n < 10
    · rw [natDigits_small hm, natDigits_small hn] at h
      exact digitChar_inj_lt m hm n hn (List.cons.inj h).1
    · rw [natDigits_small hm, natDigits_large hn] at h
      have h3 := congrArg List.length h
      simp only [List.length_cons, List.length_append, List.length_nil] at h3
      have := natDigits_length_pos (n / 10)
      omega
    · rw [natDigits_large hm, natDigits_small hn] at h
      have h3 := congrArg List.length h
      simp only [List.length_cons, List.length_append, List.length_nil] at h3
      have := natDigits_length_pos (m / 10)
      omega
    · rw [natDigits_large hm, natDigits_large hn] at h
      obtain ⟨h1, h2⟩ := List.append_inj' h rfl
      have hmod : m % 10 = n % 10 :=
        digitChar_inj_lt (m % 10) (Nat.mod_lt m (by omega)) (n % 10)
          (Nat.mod_lt n (by omega)) (List.cons.inj h2).1
      have hdiv : m / 10 = n / 10 :=
        ih (m / 10) (Nat.div_lt_self (by omega) (by omega)) (n / 10) h1
      omega

/-- `natDecimal` is injective. -/
theorem natDecimal_inj : Function.Injective natDecimal := by
  intro m n h
  rw [natDecimal_eq_digits, natDecimal_eq_digits] at h
  exact natDigits_inj m n (congrArg String.data h)

/-- Change-id strings are injective in the counter value. -/
theorem changeIdStr_inj : Function.Injective changeIdStr := by
  intro m n h
  apply natDecimal_inj
  apply String.ext
  have h2 := congrArg String.data h
  simp only [changeIdStr, String.data_append] at h2
  exact List.append_cancel_left h2

/-- One-step unfolding of the assembler: skipped empty pairing. -/
theorem mkBlockDiffs_cons_nil (wdiff : String → String → List Change)
    (rest : List (Option Block × Option Block)) (n : Nat) :
    mkBlockDiffs wdiff ((none, none) :: rest) n = mkBlockDiffs wdiff rest n := rfl

/-- One-step unfolding of the assembler: insert pairing. -/
theorem mkBlockDiffs_cons_insert (wdiff : String → String → List Change)
    (c : Block) (rest : List (Option Block × Option Block)) (n : Nat) :
    mkBlockDiffs wdiff ((none, some c) :: rest) n =
      ({ type := .insert, currentBlock := some c,
         changeId := some (changeIdStr n) } :: (mkBlockDiffs wdiff rest (n + 1)).1,
        (mkBlockDiffs wdiff rest (n + 1)).2) := rfl

/-- One-step unfolding of the assembler: delete pairing. -/
theorem mkBlockDiffs_cons_delete (wdiff : String → String → List Change)
    (o : Block) (rest : List (Option Block × Option Block)) (n : Nat) :
    mkBlockDiffs wdiff ((some o, none) :: rest) n =
      ({ type := .delete, originalBlock := some o,
         changeId := some (changeIdStr n) } :: (mkBlockDiffs wdiff rest (n + 1)).1,
        (mkBlockDiffs wdiff rest (n + 1)).2) := rfl

/-- One-step unfolding of the assembler: two-sided pairing with identical raw
text and formatting. -/
theorem mkBlockDiffs_cons_same (wdiff : String → String → List Change)
    (o c : Block) (rest : List (Option Block × Option Block)) (n : Nat)
    (h : o.text = c.text ∧ formatingsEqual o.formatting c.formatting = true) :
    mkBlockDiffs wdiff ((some o, some c) :: rest) n =
      ({ type := .unchanged, originalBlock := some o,
         currentBlock := some c } :: (mkBlockDiffs wdiff rest n).1,
        (mkBlockDiffs wdiff rest n).2) := by
  show (if _ : _ then _ else _) = _
  rw [dif_pos h]

/-- One-step unfolding of the assembler: two-sided pairing with differing raw
text or formatting. -/
theorem mkBlockDiffs_cons_diff (wdiff : String → String → List Change)
    (o c : Block) (rest : List (Option Block × Option Block)) (n : Nat)
    (h : ¬(o.text = c.text ∧ formatingsEqual o.formatting c.formatting = true)) :
    mkBlockDiffs wdiff ((some o, some c) :: rest) n =
      (let wd := wdiff o.text c.text
       let hasChanges := wd.any (fun ch => ch.added || ch.removed) ||
         (diffFormatting o c wd).any (fun fc => fc.isFormatChange)
       ({ type := if hasChanges then .modify else .unchanged,
          originalBlock := some o, currentBlock := some c,
          wordDiff := some wd,
          groupedDiff := some (groupConsecutiveChanges wd),
          formatDiff := some (diffFormatting o c wd),
          changeId := if hasChanges then some (changeIdStr n) else none } ::
            (mkBlockDiffs wdiff rest (if hasChanges then n + 1 else n)).1,
         (mkBlockDiffs wdiff rest (if hasChanges then n + 1 else n)).2)) := by
  show (if _ : _ then _ else _) = _
  rw [dif_neg h]

/-- The assembler's counter behaves as a strictly increasing id dispenser: the
emitted change ids are exactly `changeIdStr` of the counter range, a block
diff carries an id iff its type is not `unchanged`, and the id count is the
counter increment. -/
theorem mkBlockDiffs_spec (wdiff : String → String → List Change) :
    ∀ (pairs : List (Option Block × Option Block)) (n : Nat),
    n ≤ (mkBlockDiffs wdiff pairs n).2 ∧
    (mkBlockDiffs wdiff pairs n).1.filterMap (fun bd => bd.changeId) =
      (List.range' n ((mkBlockDiffs wdiff pairs n).2 - n) 1).map changeIdStr ∧
    (∀ bd ∈ (mkBlockDiffs wdiff pairs n).1,
      bd.changeId.isSome = true ↔ bd.type ≠ DiffType.unchanged) ∧
    ((mkBlockDiffs wdiff pairs n).1.filter (fun bd => bd.changeId.isSome)).length =
      (mkBlockDiffs wdiff pairs n).2 - n
  | [], n => by simp [mkBlockDiffs]
  | (none, none) :: rest, n => by
    rw [mkBlockDiffs_cons_nil]
    exact mkBlockDiffs_spec wdiff rest n
  | (none, some c) :: rest, n => by
    obtain ⟨ih1, ih2, ih3, ih4⟩ := mkBlockDiffs_spec wdiff rest (n + 1)
    rw [mkBlockDiffs_cons_insert]
    refine ⟨by omega, ?_, ?_, ?_⟩
    · simp only [List.filterMap_cons]
      have hn : (mkBlockDiffs wdiff rest (n + 1)).2 - n =
          ((mkBlockDiffs wdiff rest (n + 1)).2 - (n + 1)) + 1 := by omega
      rw [hn, List.range'_succ, List.map_cons]
      simpa using ih2
    · intro bd hbd
      rcases List.mem_cons.1 hbd with rfl | hbd
      · simp
      · exact ih3 bd hbd
    · simp only [List.filter_cons]
      simp only [Option.isSome_some]
      rw [if_pos trivial]
      simp only [List.length_cons, ih4]
      omega
  | (some o, none) :: rest, n => by
    obtain ⟨ih1, ih2, ih3, ih4⟩ := mkBlockDiffs_spec wdiff rest (n + 1)
    rw [mkBlockDiffs_cons_delete]
    refine ⟨by omega, ?_, ?_, ?_⟩
    · simp only [List.filterMap_cons]
      have hn : (mkBlockDiffs wdiff rest (n + 1)).2 - n =
          ((mkBlockDiffs wdiff rest (n + 1)).2 - (n + 1)) + 1 := by omega
      rw [hn, List.range'_succ, List.map_cons]
      simpa using ih2
    · intro bd hbd
      rcases List.mem_cons.1 hbd with rfl | hbd
      · simp
      · exact ih3 bd hbd
    · simp only [List.filter_cons]
      simp only [Option.isSome_some]
      rw [if_pos trivial]
      simp only [List.length_cons, ih4]
      omega
  | (some o, some c) :: rest, n => by
    by_cases hsame : o.text = c.text ∧ formatingsEqual o.formatting c.formatting = true
    · obtain ⟨ih1, ih2, ih3, ih4⟩ := mkBlockDiffs_spec wdiff rest n
      rw [mkBlockDiffs_cons_same wdiff o c rest n hsame]
      refine ⟨by omega, ?_, ?_, ?_⟩
      · simpa using ih2
      · intro bd hbd
        rcases List.mem_cons.1 hbd with rfl | hbd
        · simp
        · exact ih3 bd hbd
      · simpa using ih4
    · rw [mkBlockDiffs_cons_diff wdiff o c rest n hsame]
      by_cases hch : ((wdiff o.text c.text).any (fun ch => ch.added || ch.removed) ||
          (diffFormatting o c (wdiff o.text c.text)).any (fun fc => fc.isFormatChange)) = true
      · obtain ⟨ih1, ih2, ih3, ih4⟩ := mkBlockDiffs_spec wdiff rest (n + 1)
        simp only [hch, if_true]
        refine ⟨by omega, ?_, ?_, ?_⟩
        · simp only [List.filterMap_cons]
          have hn : (mkBlockDiffs wdiff rest (n + 1)).2 - n =
              ((mkBlockDiffs wdiff rest (n + 1)).2 - (n + 1)) + 1 := by omega
          rw [hn, List.range'_succ, List.map_cons]
          simpa using ih2
        · intro bd hbd
          rcases List.mem_cons.1 hbd with rfl | hbd
          · simp
          · exact ih3 bd hbd
        · simp only [List.filter_cons]
          simp only [Option.isSome_some]
          rw [if_pos trivial]
          simp only [List.length_cons, ih4]
          omega
      · obtain ⟨ih1, ih2, ih3, ih4⟩ := mkBlockDiffs_spec wdiff rest n
        simp only [Bool.not_eq_true] at hch
        simp only [hch, Bool.false_eq_true, if_false]
        refine ⟨by omega, ?_, ?_, ?_⟩
        · simpa using ih2
        · intro bd hbd
          rcases List.mem_cons.1 hbd with rfl | hbd
          · simp
          · exact ih3 bd hbd
        · simpa using ih4

/-- C3: in every returned `DocumentDiff`, a `BlockDiff` carries a change id
iff its type is not `unchanged`; the ids are `change-0`, `change-1`, … in
final document order (the counter starts at zero and increases strictly), so
they are pairwise distinct, and `totalChanges` equals the number of
`BlockDiff`s that carry a change id. -/
theorem change_ids_counter (e : DiffEngine) (wdiff : String → String → List Change)
    (o c : DocumentAST) :
    (∀ bd ∈ (e.diffDocuments wdiff o c).blockDiffs,
      bd.changeId.isSome = true ↔ bd.type ≠ DiffType.unchanged) ∧
    (e.diffDocuments wdiff o c).blockDiffs.filterMap (fun bd => bd.changeId) =
      (List.range (e.diffDocuments wdiff o c).totalChanges).map changeIdStr ∧
    ((e.diffDocuments wdiff o c).blockDiffs.filterMap (fun bd => bd.changeId)).Nodup ∧
    ((e.diffDocuments wdiff o c).blockDiffs.filter
      (fun bd => bd.changeId.isSome)).length = (e.diffDocuments wdiff o c).totalChanges := by
  obtain ⟨h1, h2, h3, h4⟩ := mkBlockDiffs_spec wdiff
    ((alignBlocks o.blocks c.blocks).1.map (toBlockPair o.blocks c.blocks)) 0
  simp only [DiffEngine.diffDocuments, DiffEngine.diffDocumentsWithDebug]
  rw [Nat.sub_zero] at h2 h4
  refine ⟨h3, ?_, ?_, h4⟩
  · rw [h2, List.range_eq_range']
  · rw [h2]
    exact (List.nodup_range' .. ).map changeIdStr_inj

/-- `contains` on an index range is the bound check. -/
theorem contains_range (k j : Nat) : (List.range k).contains j = decide (j < k) := by
  by_cases h : j < k <;> simp_all [List.elem_iff]

/-- One-step unfolding of `matchesForAux`. -/
theorem matchesForAux_cons (h : String) (b : Block) (rest : List Block) (i : Nat) :
    matchesForAux h (b :: rest) i =
      if hashBlock b = h then (i, b) :: matchesForAux h rest (i + 1)
      else matchesForAux h rest (i + 1) := rfl

/-- One-step unfolding of `exactGo`. -/
theorem exactGo_cons (cb : List Block) (b : Block) (rest : List Block) (i : Nat)
    (used : List Nat) :
    exactGo cb (b :: rest) i used =
      match (matchesFor cb (hashBlock b)).find? (fun p => !(used.contains p.1)) with
      | some p =>
        let r := exactGo cb rest (i + 1) (used ++ [p.1])
        ⟨(some i, some p.1) :: r.alignment, exactDecision i p.1 b p.2 :: r.decisions,
          r.used, r.unmatched⟩
      | none =>
        let r := exactGo cb rest (i + 1) used
        ⟨r.alignment, r.decisions, r.used, (i, b) :: r.unmatched⟩ := rfl

/-- In the self-diff, the first unused exact match of the block at position
`l1.length` is that position itself. -/
theorem matchesForAux_self_find (h : String) :
    ∀ (l1 l2 : List Block) (b : Block) (s : Nat), hashBlock b = h →
    (matchesForAux h (l1 ++ b :: l2) s).find?
        (fun p => !((List.range (s + l1.length)).contains p.1)) = some (s + l1.length, b)
  | [], l2, b, s, hb => by
    rw [List.nil_append, matchesForAux_cons, if_pos hb]
    rw [List.find?_cons_of_pos _ (by simp [contains_range])]
    simp
  | a :: l1, l2, b, s, hb => by
    have harith : s + (a :: l1).length = (s + 1) + l1.length := by simp; omega
    rw [List.cons_append, matchesForAux_cons]
    by_cases ha : hashBlock a = h
    · rw [if_pos ha]
      rw [List.find?_cons_of_neg _ (by simp [contains_range])]
      rw [harith]
      exact matchesForAux_self_find h l1 l2 b (s + 1) hb
    · rw [if_neg ha, harith]
      exact matchesForAux_self_find h l1 l2 b (s + 1) hb

/-- The exact pass of a self-diff matches every block with itself, in order:
processing the suffix `l2` of the block list with the prefix already
self-matched yields the identity pairing, a fully used index set, and no
unmatched blocks. -/
theorem exactGo_self (cb : List Block) :
    ∀ (l2 l1 : List Block), cb = l1 ++ l2 →
    ∃ ds, exactGo cb l2 l1.length (List.range l1.length) =
      ⟨(List.range' l1.length l2.length).map (fun i => (some i, some i)), ds,
        List.range (l1.length + l2.length), []⟩
  | [], l1, hcb => by
    refine ⟨[], ?_⟩
    show (⟨[], [], List.range l1.length, []⟩ : ExactResult) = _
    simp
  | b :: l2, l1, hcb => by
    obtain ⟨ds, ih⟩ := exactGo_self cb l2 (l1 ++ [b]) (by rw [hcb]; simp)
    have hfind := matchesForAux_self_find (hashBlock b) l1 l2 b 0 rfl
    rw [Nat.zero_add] at hfind
    refine ⟨exactDecision l1.length l1.length b b :: ds, ?_⟩
    rw [exactGo_cons,
      show matchesFor cb (hashBlock b) = matchesForAux (hashBlock b) (l1 ++ b :: l2) 0 from by
        rw [hcb]; rfl,
      hfind]
    show (⟨(some l1.length, some l1.length) ::
        (exactGo cb l2 (l1.length + 1) (List.range l1.length ++ [l1.length])).alignment,
      exactDecision l1.length l1.length b b ::
        (exactGo cb l2 (l1.length + 1) (List.range l1.length ++ [l1.length])).decisions,
      (exactGo cb l2 (l1.length + 1) (List.range l1.length ++ [l1.length])).used,
      (exactGo cb l2 (l1.length + 1) (List.range l1.length ++ [l1.length])).unmatched⟩ :
        ExactResult) = _
    have hlen : (l1 ++ [b]).length = l1.length + 1 := by simp
    rw [← List.range_succ l1.length, ← hlen]
    have hsucc : List.range l1.length.succ = List.range (l1 ++ [b]).length := by rw [hlen]
    rw [hsucc, ih]
    simp only [ExactResult.mk.injEq]
    refine ⟨?_, trivial, ?_, trivial⟩
    · rw [show (b :: l2).length = l2.length + 1 from rfl, List.range'_succ, List.map_cons, hlen]
    · rw [show (l1 ++ [b]).length + l2.length = l1.length + (b :: l2).length from by
        simp; omega]

/-- When every current index is already used, the insert step produces
nothing. -/
theorem insertGo_all_used (used : List Nat) :
    ∀ (l : List Block) (s : Nat),
    (∀ j, s ≤ j → j < s + l.length → used.contains j = true) →
    insertGo used l s = ([], [])
  | [], s, _ => rfl
  | b :: rest, s, hall => by
    show (let r := insertGo used rest (s + 1);
      if used.contains s then r else ((none, some s) :: r.1, insertDecision s b :: r.2)) = _
    rw [insertGo_all_used used rest (s + 1)
      (fun j h1 h2 => hall j (by omega) (by simp at h2 ⊢; omega))]
    rw [if_pos (hall s (by omega) (by simp))]

/-- The identity pairing list is sorted for the final-ordering comparator. -/
theorem selfPairs_sorted (k m : Nat) :
    ((List.range' k m).map (fun i => ((some i : Option Nat), (some i : Option Nat)))).Pairwise
      pairRel := by
  refine List.Pairwise.map _ ?_ (List.pairwise_lt_range' ..)
  intro i j hij
  unfold pairRel pairLE
  rw [if_neg (by simp; omega)]
  simp [idxKeyLT]
  omega

/-- The fuzzy pass with no unmatched originals is empty. -/
theorem fuzzyGo_nil (cb : List Block) (used : List Nat) :
    fuzzyGo cb [] used = ⟨[], [], used⟩ := rfl

/-- `alignBlocks` of a block list against itself is the identity pairing in
document order. -/
theorem alignBlocks_self (bl : List Block) :
    ∃ ds, alignBlocks bl bl =
      ((List.range bl.length).map (fun i => (some i, some i)), ds) := by
  obtain ⟨ds, hex⟩ := exactGo_self bl bl [] rfl
  simp only [List.length_nil, List.range_zero, List.nil_append, Nat.zero_add] at hex
  refine ⟨ds, ?_⟩
  unfold alignBlocks
  rw [hex]
  simp only [List.reverse_nil, fuzzyGo_nil, List.append_nil]
  rw [insertGo_all_used (List.range bl.length) bl 0
    (fun j h1 h2 => by rw [contains_range]; simp at h2 ⊢; omega)]
  simp only [List.append_nil]
  rw [← List.range_eq_range']
  rw [List.Sorted.insertionSort_eq
    (by have := selfPairs_sorted 0 bl.length
        rwa [← List.range_eq_range'] at this)]

/-- Mapping the identity index pairing back to blocks yields the identity
block pairing. -/
theorem toBlockPair_self (bl : List Block) :
    ((List.range bl.length).map (fun i => ((some i : Option Nat), (some i : Option Nat)))).map
        (toBlockPair bl bl) =
      bl.map (fun b => (some b, some b)) := by
  induction bl with
  | nil => rfl
  | cons b rest ih =>
    rw [show (b :: rest).length = rest.length + 1 from rfl, List.range_succ_eq_map]
    simp only [List.map_cons, List.map_map]
    show ((some b, some b) ::
      (List.range rest.length).map (toBlockPair rest rest ∘ fun i => (some i, some i)) :
        List (Option Block × Option Block)) = _
    rw [← List.map_map, ih]

/-- Field-wise formatting equality is reflexive. -/
theorem formatingsEqual_refl (f : TextFormatting) : formatingsEqual f f = true := by
  simp [formatingsEqual]

/-- The assembler on identity block pairings emits only `unchanged` diffs and
leaves the counter untouched. -/
theorem mkBlockDiffs_self (wdiff : String → String → List Change) :
    ∀ (l : List Block) (n : Nat),
    mkBlockDiffs wdiff (l.map (fun b => (some b, some b))) n =
      (l.map (fun b =>
        { type := .unchanged, originalBlock := some b, currentBlock := some b }), n)
  | [], n => rfl
  | b :: l, n => by
    rw [List.map_cons, mkBlockDiffs_cons_same wdiff b b _ n ⟨rfl, formatingsEqual_refl _⟩,
      mkBlockDiffs_self wdiff l n]
    rfl

/-- C2: diffing a document against itself yields `totalChanges = 0` and every
`BlockDiff` has type `unchanged`. -/
theorem self_diff_unchanged (e : DiffEngine) (wdiff : String → String → List Change)
    (d : DocumentAST) :
    (e.diffDocuments wdiff d d).totalChanges = 0 ∧
    ∀ bd ∈ (e.diffDocuments wdiff d d).blockDiffs, bd.type = DiffType.unchanged := by
  obtain ⟨ds, hal⟩ := alignBlocks_self d.blocks
  unfold DiffEngine.diffDocuments DiffEngine.diffDocumentsWithDebug
  rw [hal]
  simp only [toBlockPair_self, mkBlockDiffs_self]
  refine ⟨trivial, ?_⟩
  intro bd hbd
  simp only [List.mem_map] at hbd
  obtain ⟨b, _, rfl⟩ := hbd
  rfl

/-- Witness for C2 at a concrete document. -/
theorem self_diff_unchanged_witness :
    (DiffEngine.diffDocuments {} wdiffModel
      { blocks := [{ id := "b0", type := .paragraph, text := "Same text",
                     runs := [], formatting := {} }] }
      { blocks := [{ id := "b0", type := .paragraph, text := "Same text",
                     runs := [], formatting := {} }] }).totalChanges = 0 ∧
    ({ type := DiffType.unchanged,
       originalBlock := some { id := "b0", type := .paragraph, text := "Same text",
                               runs := [], formatting := {} },
       currentBlock := some { id := "b0", type := .paragraph, text := "Same text",
                              runs := [], formatting := {} } } : BlockDiff).type =
      DiffType.unchanged := by
  refine ⟨(self_diff_unchanged {} wdiffModel
    { blocks := [{ id := "b0", type := .paragraph, text := "Same text",
                   runs := [], formatting := {} }] }).1, ?_⟩
  exact (self_diff_unchanged {} wdiffModel
    { blocks := [{ id := "b0", type := .paragraph, text := "Same text",
                   runs := [], formatting := {} }] }).2 _ (by decide)

/-- With no used indices, the insert step inserts every current block in
order. -/
theorem insertGo_nil_used :
    ∀ (l : List Block) (s : Nat), ∃ ds, insertGo [] l s =
      ((List.range' s l.length).map (fun j => ((none : Option Nat), some j)), ds)
  | [], s => ⟨[], rfl⟩
  | b :: rest, s => by
    obtain ⟨ds, ih⟩ := insertGo_nil_used rest (s + 1)
    refine ⟨insertDecision s b :: ds, ?_⟩
    show (let r := insertGo [] rest (s + 1);
      if ([] : List Nat).contains s then r
      else ((none, some s) :: r.1, insertDecision s b :: r.2)) = _
    rw [ih]
    rw [show (b :: rest).length = rest.length + 1 from rfl, List.range'_succ]
    rfl

/-- Insert-only pairings are sorted for the final-ordering comparator. -/
theorem insertPairs_sorted (s m : Nat) :
    ((List.range' s m).map (fun j => ((none : Option Nat), some j))).Pairwise pairRel := by
  refine List.Pairwise.map _ ?_ (List.pairwise_lt_range' ..)
  intro i j hij
  unfold pairRel pairLE
  rw [if_pos rfl]
  simp [idxKeyLE]
  omega

/-- Mapping insert-only index pairings to blocks recovers the current
blocks. -/
theorem toBlockPair_inserts (ob cb : List Block) :
    ((List.range cb.length).map (fun j => ((none : Option Nat), some j))).map
        (toBlockPair ob cb) =
      cb.map (fun b => ((none : Option Block), some b)) := by
  induction cb with
  | nil => rfl
  | cons b rest ih =>
    rw [show (b :: rest).length = rest.length + 1 from rfl, List.range_succ_eq_map]
    simp only [List.map_cons, List.map_map]
    show ((none, some b) ::
      (List.range rest.length).map (toBlockPair ob rest ∘ fun j => (none, some j)) :
        List (Option Block × Option Block)) = _
    rw [← List.map_map, ih]

/-- The assembler on insert-only pairings: one insert `BlockDiff` per current
block, ids counted up from `n`. -/
theorem mkBlockDiffs_inserts (wdiff : String → String → List Change) :
    ∀ (l : List Block) (n : Nat),
    mkBlockDiffs wdiff (l.map (fun b => ((none : Option Block), some b))) n =
      ((l.zip (List.range' n l.length)).map (fun p =>
        { type := .insert, currentBlock := some p.1,
          changeId := some (changeIdStr p.2) }), n + l.length)
  | [], n => rfl
  | b :: rest, n => by
    rw [List.map_cons, mkBlockDiffs_cons_insert, mkBlockDiffs_inserts wdiff rest (n + 1)]
    rw [show (b :: rest).length = rest.length + 1 from rfl, List.range'_succ,
      List.zip_cons_cons, List.map_cons]
    simp only [Prod.mk.injEq, List.cons.injEq]
    refine ⟨trivial, by omega⟩

/-- The assembler on delete-only pairings: one delete `BlockDiff` per original
block, ids counted up from `n`. -/
theorem mkBlockDiffs_deletes (wdiff : String → String → List Change) :
    ∀ (l : List Block) (n : Nat),
    mkBlockDiffs wdiff (l.map (fun b => (some b, (none : Option Block)))) n =
      ((l.zip (List.range' n l.length)).map (fun p =>
        { type := .delete, originalBlock := some p.1,
          changeId := some (changeIdStr p.2) }), n + l.length)
  | [], n => rfl
  | b :: rest, n => by
    rw [List.map_cons, mkBlockDiffs_cons_delete, mkBlockDiffs_deletes wdiff rest (n + 1)]
    rw [show (b :: rest).length = rest.length + 1 from rfl, List.range'_succ,
      List.zip_cons_cons, List.map_cons]
    simp only [Prod.mk.injEq, List.cons.injEq]
    refine ⟨trivial, by omega⟩

/-- With an empty current side, `matchesFor` is empty, so the exact pass
leaves every original unmatched, in order. -/
theorem exactGo_nil_cb :
    ∀ (l : List Block) (i : Nat) (used : List Nat),
    exactGo [] l i used = ⟨[], [], used, (List.range' i l.length).zip l⟩
  | [], _, _ => rfl
  | b :: rest, i, used => by
    rw [exactGo_cons]
    show (let r := exactGo [] rest (i + 1) used
      (⟨r.alignment, r.decisions, r.used, (i, b) :: r.unmatched⟩ : ExactResult)) = _
    rw [exactGo_nil_cb rest (i + 1) used]
    rw [show (b :: rest).length = rest.length + 1 from rfl, List.range'_succ,
      List.zip_cons_cons]

/-- With an empty current side, the fuzzy pass turns every unmatched original
into a delete pairing, in order. -/
theorem fuzzyGo_nil_cb :
    ∀ (pairs : List (Nat × Block)) (used : List Nat), ∃ ds,
    fuzzyGo [] pairs used =
      ⟨pairs.map (fun p => (some p.1, (none : Option Nat))), ds, used⟩
  | [], used => ⟨[], rfl⟩
  | (i, b) :: rest, used => by
    obtain ⟨ds, ih⟩ := fuzzyGo_nil_cb rest used
    refine ⟨deleteDecision i b (bestCandidate [] used b) :: ds, ?_⟩
    show (let r := fuzzyGo [] rest used
      (⟨(some i, none) :: r.alignment,
        deleteDecision i b (bestCandidate [] used b) :: r.decisions, r.used⟩ : FuzzyResult)) = _
    rw [ih]
    rfl

/-- Delete-only pairings are sorted for the final-ordering comparator. -/
theorem deletePairs_sorted (s m : Nat) :
    ((List.range' s m).map (fun i => (some i, (none : Option Nat)))).Pairwise pairRel := by
  refine List.Pairwise.map _ ?_ (List.pairwise_lt_range' ..)
  intro i j hij
  unfold pairRel pairLE
  rw [if_neg (by simp; omega)]
  simp [idxKeyLT]
  omega

/-- Mapping delete-only index pairings to blocks recovers the original
blocks. -/
theorem toBlockPair_deletes (ob cb : List Block) :
    ((List.range ob.length).map (fun i => (some i, (none : Option Nat)))).map
        (toBlockPair ob cb) =
      ob.map (fun b => (some b, (none : Option Block))) := by
  induction ob with
  | nil => rfl
  | cons b rest ih =>
    rw [show (b :: rest).length = rest.length + 1 from rfl, List.range_succ_eq_map]
    simp only [List.map_cons, List.map_map]
    show ((some b, none) ::
      (List.range rest.length).map (toBlockPair rest cb ∘ fun i => (some i, none)) :
        List (Option Block × Option Block)) = _
    rw [← List.map_map, ih]

/-- `alignBlocks` with an empty original side: every current block becomes an
insert pairing, in current order. -/
theorem alignBlocks_empty_orig (cb : List Block) :
    ∃ ds, alignBlocks [] cb =
      ((List.range cb.length).map (fun j => ((none : Option Nat), some j)), ds) := by
  obtain ⟨ds, hins⟩ := insertGo_nil_used cb 0
  unfold alignBlocks
  rw [show exactGo cb [] 0 [] = ⟨[], [], [], []⟩ from rfl]
  simp only [fuzzyGo_nil]
  rw [hins]
  refine ⟨ds, ?_⟩
  simp only [List.nil_append]
  rw [← List.range_eq_range']
  rw [List.Sorted.insertionSort_eq
    (by have := insertPairs_sorted 0 cb.length
        rwa [← List.range_eq_range'] at this)]

/-- `alignBlocks` with an empty current side: every original block becomes a
delete pairing, in original order. -/
theorem alignBlocks_empty_curr (ob : List Block) :
    ∃ ds, alignBlocks ob [] =
      ((List.range ob.length).map (fun i => (some i, (none : Option Nat))), ds) := by
  obtain ⟨ds, hfz⟩ := fuzzyGo_nil_cb ((List.range' 0 ob.length).zip ob) []
  unfold alignBlocks
  rw [show exactGo [] ob 0 [] = ⟨[], [], [], (List.range' 0 ob.length).zip ob⟩ from
    exactGo_nil_cb ob 0 []]
  simp only []
  rw [hfz]
  have hmap : (((List.range' 0 ob.length).zip ob).map
      (fun p => (some p.1, (none : Option Nat)))) =
      (List.range' 0 ob.length).map (fun i => (some i, (none : Option Nat))) := by
    have h1 : ((List.range' 0 ob.length).zip ob).map Prod.fst = List.range' 0 ob.length :=
      List.map_fst_zip _ _ (by simp)
    calc ((List.range' 0 ob.length).zip ob).map (fun p => (some p.1, (none : Option Nat)))
        = (((List.range' 0 ob.length).zip ob).map Prod.fst).map
            (fun i => (some i, (none : Option Nat))) := by
          rw [List.map_map]; rfl
      _ = _ := by rw [h1]
  rw [hmap]
  refine ⟨ds, ?_⟩
  show (List.insertionSort pairRel
    (_ ++ _ ++ (insertGo (FuzzyResult.mk _ _ []).used [] 0).1), _) = _
  rw [show insertGo ([] : List Nat) ([] : List Block) 0 = ([], []) from rfl]
  simp only [List.nil_append, List.append_nil]
  rw [← List.range_eq_range']
  rw [List.Sorted.insertionSort_eq
    (by have := deletePairs_sorted 0 ob.length
        rwa [← List.range_eq_range'] at this)]

/-- Every assembled `BlockDiff` references at least one side. -/
theorem mkBlockDiffs_sides (wdiff : String → String → List Change) :
    ∀ (pairs : List (Option Block × Option Block)) (n : Nat),
    ∀ bd ∈ (mkBlockDiffs wdiff pairs n).1,
      bd.originalBlock.isSome = true ∨ bd.currentBlock.isSome = true
  | [], n => by simp [mkBlockDiffs]
  | (none, none) :: rest, n => by
    rw [mkBlockDiffs_cons_nil]
    exact mkBlockDiffs_sides wdiff rest n
  | (none, some c) :: rest, n => by
    rw [mkBlockDiffs_cons_insert]
    intro bd hbd
    rcases List.mem_cons.1 hbd with rfl | hbd
    · simp
    · exact mkBlockDiffs_sides wdiff rest (n + 1) bd hbd
  | (some o, none) :: rest, n => by
    rw [mkBlockDiffs_cons_delete]
    intro bd hbd
    rcases List.mem_cons.1 hbd with rfl | hbd
    · simp
    · exact mkBlockDiffs_sides wdiff rest (n + 1) bd hbd
  | (some o, some c) :: rest, n => by
    by_cases hsame : o.text = c.text ∧ formatingsEqual o.formatting c.formatting = true
    · rw [mkBlockDiffs_cons_same wdiff o c rest n hsame]
      intro bd hbd
      rcases List.mem_cons.1 hbd with rfl | hbd
      · simp
      · exact mkBlockDiffs_sides wdiff rest n bd hbd
    · rw [mkBlockDiffs_cons_diff wdiff o c rest n hsame]
      intro bd hbd
      rcases List.mem_cons.1 hbd with rfl | hbd
      · simp
      · exact mkBlockDiffs_sides wdiff rest _ bd hbd

/-- C9: the engine is total on well-formed inputs and degrades as specified on
the edges — an empty original makes every current block an insert (ids in
current order), an empty current makes every original block a delete, two
empty documents give the empty diff with zero changes, and every produced
`BlockDiff` is valid in that it references at least one block. -/
theorem engine_total_edge_cases (e : DiffEngine) (wdiff : String → String → List Change)
    (md md' : DocMetadata) (sp sp' : Option SectionProperties) (o c : DocumentAST) :
    (e.diffDocuments wdiff { metadata := md, blocks := [], sectionProperties := sp } c =
      { blockDiffs := (c.blocks.zip (List.range' 0 c.blocks.length)).map (fun p =>
          { type := .insert, currentBlock := some p.1,
            changeId := some (changeIdStr p.2) }),
        totalChanges := c.blocks.length,
        sectionProperties := c.sectionProperties }) ∧
    (e.diffDocuments wdiff o { metadata := md', blocks := [], sectionProperties := sp' } =
      { blockDiffs := (o.blocks.zip (List.range' 0 o.blocks.length)).map (fun p =>
          { type := .delete, originalBlock := some p.1,
            changeId := some (changeIdStr p.2) }),
        totalChanges := o.blocks.length,
        sectionProperties := sp' }) ∧
    (e.diffDocuments wdiff { metadata := md, blocks := [], sectionProperties := sp }
        { metadata := md', blocks := [], sectionProperties := sp' } =
      { blockDiffs := [], totalChanges := 0, sectionProperties := sp' }) ∧
    (∀ bd ∈ (e.diffDocuments wdiff o c).blockDiffs,
      bd.originalBlock.isSome = true ∨ bd.currentBlock.isSome = true) := by
  refine ⟨?_, ?_, rfl, ?_⟩
  · obtain ⟨ds, hal⟩ := alignBlocks_empty_orig c.blocks
    unfold DiffEngine.diffDocuments DiffEngine.diffDocumentsWithDebug
    rw [hal]
    simp only [toBlockPair_inserts, mkBlockDiffs_inserts]
    simp
  · obtain ⟨ds, hal⟩ := alignBlocks_empty_curr o.blocks
    unfold DiffEngine.diffDocuments DiffEngine.diffDocumentsWithDebug
    rw [hal]
    simp only [toBlockPair_deletes, mkBlockDiffs_deletes]
    simp
  · exact fun bd hbd => mkBlockDiffs_sides wdiff _ 0 bd hbd

/-- Witness for C3 at a concrete pair of documents. -/
theorem change_ids_counter_witness :
    ({ type := DiffType.delete, originalBlock := some sampleBlockA,
       changeId := some (changeIdStr 0) } : BlockDiff).changeId.isSome = true ↔
      ({ type := DiffType.delete, originalBlock := some sampleBlockA,
         changeId := some (changeIdStr 0) } : BlockDiff).type ≠ DiffType.unchanged :=
  (change_ids_counter {} wdiffModel sampleDocA sampleDocEmpty).1 _ (by decide)

/-- Witness for C9 at a concrete pair of documents. -/
theorem engine_total_edge_cases_witness :
    ({ type := DiffType.delete, originalBlock := some sampleBlockB,
       changeId := some (changeIdStr 0) } : BlockDiff).originalBlock.isSome = true ∨
      ({ type := DiffType.delete, originalBlock := some sampleBlockB,
         changeId := some (changeIdStr 0) } : BlockDiff).currentBlock.isSome = true :=
  (engine_total_edge_cases {} wdiffModel {} {} none none sampleDocB sampleDocEmpty).2.2.2
    _ (by decide)

/-- `idxKeyLE` agrees with the `WithTop` order of the spec-side key. -/
theorem idxKeyLE_iff (x y : Option Nat) :
    idxKeyLE x y = true ↔
      (x.elim ⊤ (fun i => (i : WithTop Nat))) ≤ (y.elim ⊤ (fun j => (j : WithTop Nat))) := by
  rcases x with _ | i <;> rcases y with _ | j <;> simp [idxKeyLE]

/-- `idxKeyLT` agrees with the strict `WithTop` order of the spec-side key. -/
theorem idxKeyLT_iff (x y : Option Nat) :
    idxKeyLT x y = true ↔
      (x.elim ⊤ (fun i => (i : WithTop Nat))) < (y.elim ⊤ (fun j => (j : WithTop Nat))) := by
  rcases x with _ | i <;> rcases y with _ | j <;>
    simp [idxKeyLT, WithTop.coe_lt_top, WithTop.coe_lt_coe]

/-- The spec-side key map is injective. -/
theorem optKey_inj {x y : Option Nat}
    (h : x.elim (⊤ : WithTop Nat) (fun i => (i : WithTop Nat)) =
      y.elim ⊤ (fun j => (j : WithTop Nat))) : x = y := by
  rcases x with _ | i <;> rcases y with _ | j <;> simp_all

/-- The engine comparator coincides with the spec-side final ordering. -/
theorem pairRel_iff_specOrder (a b : Option Nat × Option Nat) :
    pairRel a b ↔ specOrder a b := by
  unfold pairRel pairLE specOrder pairKey
  by_cases h : a.1 = b.1
  · rw [if_pos h, h]
    constructor
    · intro hle
      exact Or.inr ⟨rfl, (idxKeyLE_iff _ _).1 hle⟩
    · rintro (hlt | ⟨_, hle⟩)
      · exact absurd hlt (lt_irrefl _)
      · exact (idxKeyLE_iff _ _).2 hle
  · rw [if_neg h]
    constructor
    · intro hlt
      exact Or.inl ((idxKeyLT_iff _ _).1 hlt)
    · rintro (hlt | ⟨heq, _⟩)
      · exact (idxKeyLT_iff _ _).2 hlt
      · exact absurd (optKey_inj heq) h

/-- C6: the final pairing sequence is sorted by original-document index with
missing originals as `+infinity` and ties among inserts broken by
current-document index; consequently, for two identical non-empty documents
the texts recovered from the `BlockDiffs` (preferring `originalBlock`,
falling back to `currentBlock`) are the original text sequence in order. -/
theorem final_ordering (e : DiffEngine) (wdiff : String → String → List Change)
    (ob cb : List Block) (d : DocumentAST) :
    ((alignBlocks ob cb).1.Pairwise specOrder) ∧
    (d.blocks ≠ [] →
      (e.diffDocuments wdiff d d).blockDiffs.filterMap recoveredText =
        d.blocks.map Block.text) := by
  constructor
  · unfold alignBlocks
    exact List.Pairwise.imp (fun h => (pairRel_iff_specOrder _ _).1 h)
      (List.sorted_insertionSort pairRel _)
  · intro _
    obtain ⟨ds, hal⟩ := alignBlocks_self d.blocks
    unfold DiffEngine.diffDocuments DiffEngine.diffDocumentsWithDebug
    rw [hal]
    simp only [toBlockPair_self, mkBlockDiffs_self]
    rw [List.filterMap_map]
    generalize d.blocks = bl
    induction bl with
    | nil => rfl
    | cons b rest ih =>
      simp [List.filterMap_cons, recoveredText, ih]

/-- Witness for C6 at a concrete document. -/
theorem final_ordering_witness :
    (DiffEngine.diffDocuments {} wdiffModel sampleDocA sampleDocA).blockDiffs.filterMap
        recoveredText = sampleDocA.blocks.map Block.text :=
  (final_ordering {} wdiffModel [] [] sampleDocA).2 (by decide)

/-- Boolean formatting equality decides record equality (the six compared
attributes are all the attributes there are). -/
theorem formatingsEqual_iff (f1 f2 : TextFormatting) :
    formatingsEqual f1 f2 = true ↔ f1 = f2 := by
  obtain ⟨b1, i1, u1, c1, ft1, s1⟩ := f1
  obtain ⟨b2, i2, u2, c2, ft2, s2⟩ := f2
  simp [formatingsEqual, TextFormatting.mk.injEq, and_assoc]

/-- `Option.map` of the boolean attribute constructor is injective. -/
theorem mapB_inj (x y : Option Bool) :
    x.map FmtValue.b = y.map FmtValue.b ↔ x = y := by
  rcases x <;> rcases y <;> simp

/-- `Option.map` of the string attribute constructor is injective. -/
theorem mapS_inj (x y : Option String) :
    x.map FmtValue.s = y.map FmtValue.s ↔ x = y := by
  rcases x <;> rcases y <;> simp

/-- `Option.map` of the numeric attribute constructor is injective. -/
theorem mapN_inj (x y : Option ℚ) :
    x.map FmtValue.n = y.map FmtValue.n ↔ x = y := by
  rcases x <;> rcases y <;> simp

/-- The comparator flags a change exactly when the two records differ. -/
theorem compareFormatting_changed_iff (f1 f2 : TextFormatting) :
    (compareFormatting f1 f2).1 = true ↔ f1 ≠ f2 := by
  rw [compareFormatting_eq]
  obtain ⟨b1, i1, u1, c1, ft1, s1⟩ := f1
  obtain ⟨b2, i2, u2, c2, ft2, s2⟩ := f2
  simp [formattingKeys, fmtGet, mapB_inj, mapS_inj, mapN_inj, TextFormatting.mk.injEq]
  tauto

/-- `diffFormatting` contains a `format-change` entry iff the block
formattings differ and the word diff has an unchanged segment. -/
theorem diffFormatting_formatChange_any (o c : Block) (wd : List Change) :
    ((diffFormatting o c wd).any (fun fc => fc.isFormatChange)) = true ↔
      ((compareFormatting o.formatting c.formatting).1 = true ∧
        ∃ ch ∈ wd, ch.added = false ∧ ch.removed = false) := by
  unfold diffFormatting
  simp only [List.any_eq_true, List.mem_map]
  constructor
  · rintro ⟨fc, ⟨ch, hch, rfl⟩, hfc⟩
    by_cases ha : ch.added = true
    · rw [if_pos ha] at hfc
      exact absurd hfc (by simp [DiffChange.isFormatChange])
    · rw [if_neg ha] at hfc
      by_cases hr : ch.removed = true
      · rw [if_pos hr] at hfc
        exact absurd hfc (by simp [DiffChange.isFormatChange])
      · rw [if_neg hr] at hfc
        by_cases hcf : (compareFormatting o.formatting c.formatting).1 = true
        · exact ⟨hcf, ch, hch, by simpa using ha, by simpa using hr⟩
        · rw [if_neg hcf] at hfc
          exact absurd hfc (by simp [DiffChange.isFormatChange])
  · rintro ⟨hcf, ch, hch, ha, hr⟩
    refine ⟨_, ⟨ch, hch, rfl⟩, ?_⟩
    rw [if_neg (by simp [ha]), if_neg (by simp [hr]), if_pos hcf]
    simp [DiffChange.isFormatChange]

/-- Under the word-differ contract (plus its nonempty identity fast path on
two empty strings), the assembler's `hasChanges` test agrees with the
spec-side disjunction: some added or removed segment, or differing
formatting. -/
theorem hasChanges_iff (wdiff : String → String → List Change)
    (hw : WordDifferContract wdiff) (hne : wdiff "" "" ≠ []) (o c : Block) :
    (((wdiff o.text c.text).any (fun ch => ch.added || ch.removed)) ||
      ((diffFormatting o c (wdiff o.text c.text)).any (fun fc => fc.isFormatChange))) = true ↔
    ((∃ ch ∈ wdiff o.text c.text, ch.added = true ∨ ch.removed = true) ∨
      o.formatting ≠ c.formatting) := by
  rw [Bool.or_eq_true, List.any_eq_true, diffFormatting_formatChange_any,
    compareFormatting_changed_iff]
  constructor
  · rintro (⟨ch, hch, hor⟩ | ⟨hne2, _⟩)
    · exact Or.inl ⟨ch, hch, by simpa using hor⟩
    · exact Or.inr hne2
  · rintro (⟨ch, hch, hor⟩ | hfmt)
    · exact Or.inl ⟨ch, hch, by simpa using hor⟩
    · by_cases hany : ∃ ch ∈ wdiff o.text c.text, (ch.added || ch.removed) = true
      · exact Or.inl hany
      · push_neg at hany
        refine Or.inr ⟨hfmt, ?_⟩
        have hall : ∀ ch ∈ wdiff o.text c.text, ch.added = false ∧ ch.removed = false := by
          intro ch hch
          have h3 := hany ch hch
          simp only [Bool.not_eq_true] at h3
          exact Bool.or_eq_false_iff.mp h3
        have htext : o.text = c.text := by
          have h1 := hw.reconOriginal o.text c.text
          have h2 := hw.reconCurrent o.text c.text
          rw [List.filter_eq_self.2 (fun ch hch => by simp [(hall ch hch).1])] at h1
          rw [List.filter_eq_self.2 (fun ch hch => by simp [(hall ch hch).2])] at h2
          exact h1.symm.trans h2
        have hcons : wdiff o.text c.text ≠ [] := by
          intro hnil
          by_cases hz : o.text = ""
          · have hz2 : c.text = "" := by rw [← htext]; exact hz
            apply hne
            have heq : wdiff "" "" = wdiff o.text c.text := by rw [hz, hz2]
            rw [heq]
            exact hnil
          · have h1 := hw.reconOriginal o.text c.text
            rw [hnil] at h1
            exact hz (by simpa [String.join] using h1.symm)
        obtain ⟨ch, hch⟩ := List.exists_mem_of_ne_nil _ hcons
        exact ⟨ch, hch, hall ch hch⟩

/-- C4: for a pairing with both blocks whose raw text or formatting differ,
the assembler emits `modify` with the next change id exactly when the word
diff contains an added or removed segment or the two formattings differ, and
otherwise emits `unchanged` with no change id; in particular, for the same
non-empty text with original formatting `{}` and current formatting
`{bold: true}`, it emits one `modify` whose formatting diff reports `bold`
going from `undefined` to `true`. -/
theorem modify_emission (wdiff : String → String → List Change)
    (hw : WordDifferContract wdiff) (hne : wdiff "" "" ≠ [])
    (o c : Block) (rest : List (Option Block × Option Block)) (n : Nat)
    (hdiff : ¬(o.text = c.text ∧ o.formatting = c.formatting)) :
    (((mkBlockDiffs wdiff ((some o, some c) :: rest) n).1.head?.map
        (fun bd => bd.type) = some DiffType.modify ↔
      ((∃ ch ∈ wdiff o.text c.text, ch.added = true ∨ ch.removed = true) ∨
        o.formatting ≠ c.formatting)) ∧
     ((mkBlockDiffs wdiff ((some o, some c) :: rest) n).1.head?.map
        (fun bd => bd.type) = some DiffType.modify →
      (mkBlockDiffs wdiff ((some o, some c) :: rest) n).1.head?.map
        (fun bd => bd.changeId) = some (some (changeIdStr n))) ∧
     ((mkBlockDiffs wdiff ((some o, some c) :: rest) n).1.head?.map
        (fun bd => bd.type) ≠ some DiffType.modify →
      (mkBlockDiffs wdiff ((some o, some c) :: rest) n).1.head?.map
          (fun bd => bd.type) = some DiffType.unchanged ∧
        (mkBlockDiffs wdiff ((some o, some c) :: rest) n).1.head?.map
          (fun bd => bd.changeId) = some none)) ∧
    (o.text = c.text → o.text ≠ "" → o.formatting = {} →
      c.formatting = { bold := some true } →
      (mkBlockDiffs wdiff ((some o, some c) :: rest) n).1.head?.map
          (fun bd => bd.type) = some DiffType.modify ∧
      (mkBlockDiffs wdiff ((some o, some c) :: rest) n).1.head?.map
          (fun bd => bd.changeId) = some (some (changeIdStr n)) ∧
      ∃ fd, (mkBlockDiffs wdiff ((some o, some c) :: rest) n).1.head?.map
          (fun bd => bd.formatDiff) = some (some fd) ∧
        ∃ txt, DiffChange.formatChange txt { } { bold := some true }
          [("bold", none, some (FmtValue.b true))] ∈ fd) := by
  have hdiff' : ¬(o.text = c.text ∧ formatingsEqual o.formatting c.formatting = true) := by
    rw [formatingsEqual_iff]
    exact hdiff
  rw [mkBlockDiffs_cons_diff wdiff o c rest n hdiff']
  simp only [List.head?_cons, Option.map_some]
  constructor
  · refine ⟨?_, ?_, ?_⟩
    · by_cases h : ((wdiff o.text c.text).any (fun ch => ch.added || ch.removed) ||
          (diffFormatting o c (wdiff o.text c.text)).any (fun fc => fc.isFormatChange)) = true
      · simp only [h, if_true]
        rw [← hasChanges_iff wdiff hw hne o c]
        simp [h]
      · simp only [Bool.not_eq_true] at h
        simp only [h, Bool.false_eq_true, if_false]
        rw [← hasChanges_iff wdiff hw hne o c]
        simp [h]
    · intro hm
      by_cases h : ((wdiff o.text c.text).any (fun ch => ch.added || ch.removed) ||
          (diffFormatting o c (wdiff o.text c.text)).any (fun fc => fc.isFormatChange)) = true
      · simp [h]
      · simp only [Bool.not_eq_true] at h
        simp [h] at hm
    · intro hm
      by_cases h : ((wdiff o.text c.text).any (fun ch => ch.added || ch.removed) ||
          (diffFormatting o c (wdiff o.text c.text)).any (fun fc => fc.isFormatChange)) = true
      · simp [h] at hm
      · simp only [Bool.not_eq_true] at h
        simp [h]
  · intro ht hnz hof hcf
    have hfmt : o.formatting ≠ c.formatting := by
      rw [hof, hcf]
      intro hx
      exact Option.noConfusion (congrArg TextFormatting.bold hx)
    have hself : ∀ ch ∈ wdiff o.text c.text, ch.added = false ∧ ch.removed = false := by
      intro ch hch
      rw [ht] at hch
      exact hw.selfUnchanged c.text ch hch
    have hcons : wdiff o.text c.text ≠ [] := by
      intro hnil
      have h1 := hw.reconOriginal o.text c.text
      rw [hnil] at h1
      exact hnz (by simpa [String.join] using h1.symm)
    have h : ((wdiff o.text c.text).any (fun ch => ch.added || ch.removed) ||
        (diffFormatting o c (wdiff o.text c.text)).any (fun fc => fc.isFormatChange)) = true := by
      rw [hasChanges_iff wdiff hw hne o c]
      exact Or.inr hfmt
    simp only [h, if_true]
    refine ⟨rfl, rfl, diffFormatting o c (wdiff o.text c.text), rfl, ?_⟩
    obtain ⟨ch, hch⟩ := List.exists_mem_of_ne_nil _ hcons
    obtain ⟨ha, hr⟩ := hself ch hch
    refine ⟨ch.value, ?_⟩
    unfold diffFormatting
    rw [List.mem_map]
    refine ⟨ch, hch, ?_⟩
    rw [if_neg (by simp [ha]), if_neg (by simp [hr])]
    have hcomp : compareFormatting o.formatting c.formatting =
        (true, [("bold", none, some (FmtValue.b true))]) := by
      rw [hof, hcf]
      decide
    rw [if_pos (by rw [hcomp])]
    rw [hcomp, hof, hcf]

/-- Witness for C4: the formatting-only scenario at concrete blocks. -/
theorem modify_emission_witness :
    (mkBlockDiffs wdiffModel [(some boldBlockO, some boldBlockC)] 0).1.head?.map
        (fun bd => bd.type) = some DiffType.modify ∧
    (mkBlockDiffs wdiffModel [(some boldBlockO, some boldBlockC)] 0).1.head?.map
        (fun bd => bd.changeId) = some (some (changeIdStr 0)) ∧
    ∃ fd, (mkBlockDiffs wdiffModel [(some boldBlockO, some boldBlockC)] 0).1.head?.map
        (fun bd => bd.formatDiff) = some (some fd) ∧
      ∃ txt, DiffChange.formatChange txt { } { bold := some true }
        [("bold", none, some (FmtValue.b true))] ∈ fd :=
  (modify_emission wdiffModel wdiffModel_contract (by decide) boldBlockO boldBlockC [] 0
    (by decide)).2 rfl (by decide) rfl rfl

/-- One-step unfolding of `bestFuzzyAux`. -/
theorem bestFuzzyAux_cons (used : List Nat) (b chd : Block) (rest : List Block)
    (j : Nat) (best : Option (Nat × Block × ℚ)) :
    bestFuzzyAux used b (chd :: rest) j best =
      if used.contains j then bestFuzzyAux used b rest (j + 1) best
      else
        let sim := calculateSimilarity b chd
        if sim ≥ SIMILARITY_THRESHOLD then
          match best with
          | none => bestFuzzyAux used b rest (j + 1) (some (j, chd, sim))
          | some q =>
            if sim > q.2.2 then bestFuzzyAux used b rest (j + 1) (some (j, chd, sim))
            else bestFuzzyAux used b rest (j + 1) best
        else bestFuzzyAux used b rest (j + 1) best := rfl

/-- Full characterization of the fuzzy best-match scan: provenance of the
result, domination of every unused candidate (strictly for earlier
candidates), the all-below-threshold reading of a `none` result, and
domination of the incoming accumulator. -/
theorem bestFuzzyAux_spec (used : List Nat) (b : Block) :
    ∀ (l : List Block) (j0 : Nat) (best : Option (Nat × Block × ℚ)),
    (∀ q : Nat × Block × ℚ, best = some q → q.1 < j0 ∧
      q.2.2 = calculateSimilarity b q.2.1 ∧ q.2.2 ≥ SIMILARITY_THRESHOLD) →
    ((∀ p : Nat × Block × ℚ, bestFuzzyAux used b l j0 best = some p →
        (best = some p ∨ (j0 ≤ p.1 ∧ l.get? (p.1 - j0) = some p.2.1 ∧
          used.contains p.1 = false ∧ p.2.2 = calculateSimilarity b p.2.1 ∧
          p.2.2 ≥ SIMILARITY_THRESHOLD))) ∧
     (∀ p : Nat × Block × ℚ, bestFuzzyAux used b l j0 best = some p →
        ∀ k blk', l.get? k = some blk' → used.contains (j0 + k) = false →
          calculateSimilarity b blk' ≤ p.2.2 ∧
            (j0 + k < p.1 → calculateSimilarity b blk' < p.2.2)) ∧
     (bestFuzzyAux used b l j0 best = none → best = none ∧
        ∀ k blk', l.get? k = some blk' → used.contains (j0 + k) = false →
          calculateSimilarity b blk' < SIMILARITY_THRESHOLD) ∧
     (∀ p q : Nat × Block × ℚ, bestFuzzyAux used b l j0 best = some p → best = some q →
        q.2.2 ≤ p.2.2 ∧ (p ≠ q → q.2.2 < p.2.2)))
  | [], j0, best, h0 => by
    refine ⟨?_, ?_, ?_, ?_⟩
    · intro p hp
      rw [show bestFuzzyAux used b [] j0 best = best from rfl] at hp
      exact Or.inl hp
    · intro p hp k blk' hk
      simp at hk
    · intro hn
      exact ⟨hn, fun k blk' hk => by simp at hk⟩
    · intro p q hp hq
      rw [show bestFuzzyAux used b [] j0 best = best from rfl] at hp
      rw [hp] at hq
      obtain rfl : p = q := (Option.some.inj hq)
      exact ⟨le_refl _, fun hne => absurd rfl hne⟩
  | chd :: rest, j0, best, h0 => by
    by_cases hu : used.contains j0 = true
    · rw [show bestFuzzyAux used b (chd :: rest) j0 best =
          bestFuzzyAux used b rest (j0 + 1) best from by
        rw [bestFuzzyAux_cons, if_pos hu]]
      obtain ⟨ih1, ih2, ih3, ih4⟩ := bestFuzzyAux_spec used b rest (j0 + 1) best
        (fun q hq => ⟨by have := (h0 q hq).1; omega, (h0 q hq).2⟩)
      refine ⟨?_, ?_, ?_, ih4⟩
      · intro p hp
        rcases ih1 p hp with hb | ⟨hge, hget, hun, hsim, hth⟩
        · exact Or.inl hb
        · refine Or.inr ⟨by omega, ?_, hun, hsim, hth⟩
          rw [show p.1 - j0 = (p.1 - (j0 + 1)) + 1 from by omega]
          simpa using hget
      · intro p hp k blk' hk hkun
        match k with
        | 0 =>
          rw [Nat.add_zero, hu] at hkun
          exact absurd hkun (by simp)
        | k + 1 =>
          simp only [List.get?_cons_succ] at hk
          rw [show j0 + (k + 1) = (j0 + 1) + k from by omega] at hkun ⊢
          exact ih2 p hp k blk' hk hkun
      · intro hn
        obtain ⟨hbn, hrest⟩ := ih3 hn
        refine ⟨hbn, ?_⟩
        intro k blk' hk hkun
        match k with
        | 0 =>
          rw [Nat.add_zero, hu] at hkun
          exact absurd hkun (by simp)
        | k + 1 =>
          simp only [List.get?_cons_succ] at hk
          rw [show j0 + (k + 1) = (j0 + 1) + k from by omega] at hkun
          exact hrest k blk' hk hkun
    · simp only [Bool.not_eq_true] at hu
      by_cases hth : calculateSimilarity b chd ≥ SIMILARITY_THRESHOLD
      · rcases best with _ | q
        · -- empty accumulator: the head candidate becomes the accumulator
          rw [show bestFuzzyAux used b (chd :: rest) j0 none =
              bestFuzzyAux used b rest (j0 + 1)
                (some (j0, chd, calculateSimilarity b chd)) from by
            rw [bestFuzzyAux_cons, if_neg (by rw [hu]; simp)]
            simp only
            rw [if_pos hth]]
          obtain ⟨ih1, ih2, ih3, ih4⟩ := bestFuzzyAux_spec used b rest (j0 + 1)
            (some (j0, chd, calculateSimilarity b chd))
            (fun q hq => by
              obtain rfl := Option.some.inj hq
              exact ⟨by omega, rfl, hth⟩)
          refine ⟨?_, ?_, ?_, ?_⟩
          · intro p hp
            rcases ih1 p hp with hb | ⟨hge, hget, hun, hsim, hth'⟩
            · obtain rfl := (Option.some.inj hb).symm
              exact Or.inr ⟨le_refl _, by simp, hu, rfl, hth⟩
            · refine Or.inr ⟨by omega, ?_, hun, hsim, hth'⟩
              rw [show p.1 - j0 = (p.1 - (j0 + 1)) + 1 from by omega]
              simpa using hget
          · intro p hp k blk' hk hkun
            match k with
            | 0 =>
              simp only [List.get?_cons_zero, Option.some.injEq] at hk
              subst hk
              have hd := ih4 p (j0, chd, calculateSimilarity b chd) hp rfl
              refine ⟨hd.1, ?_⟩
              intro hlt
              rw [Nat.add_zero] at hlt
              refine hd.2 (fun hx => ?_)
              rw [hx] at hlt
              omega
            | k + 1 =>
              simp only [List.get?_cons_succ] at hk
              rw [show j0 + (k + 1) = (j0 + 1) + k from by omega] at hkun ⊢
              exact ih2 p hp k blk' hk hkun
          · intro hn
            exact absurd (ih3 hn).1 (by simp)
          · intro p q hp hq
            exact absurd hq (by simp)
        · by_cases hgt : calculateSimilarity b chd > q.2.2
          · -- strictly better candidate: replace the accumulator
            rw [show bestFuzzyAux used b (chd :: rest) j0 (some q) =
                bestFuzzyAux used b rest (j0 + 1)
                  (some (j0, chd, calculateSimilarity b chd)) from by
              rw [bestFuzzyAux_cons, if_neg (by rw [hu]; simp)]
              simp only
              rw [if_pos hth, if_pos hgt]]
            obtain ⟨ih1, ih2, ih3, ih4⟩ := bestFuzzyAux_spec used b rest (j0 + 1)
              (some (j0, chd, calculateSimilarity b chd))
              (fun q' hq' => by
                obtain rfl := Option.some.inj hq'
                exact ⟨by omega, rfl, hth⟩)
            refine ⟨?_, ?_, ?_, ?_⟩
            · intro p hp
              rcases ih1 p hp with hb | ⟨hge, hget, hun, hsim, hth'⟩
              · obtain rfl := (Option.some.inj hb).symm
                exact Or.inr ⟨le_refl _, by simp, hu, rfl, hth⟩
              · refine Or.inr ⟨by omega, ?_, hun, hsim, hth'⟩
                rw [show p.1 - j0 = (p.1 - (j0 + 1)) + 1 from by omega]
                simpa using hget
            · intro p hp k blk' hk hkun
              match k with
              | 0 =>
                simp only [List.get?_cons_zero, Option.some.injEq] at hk
                subst hk
                have hd := ih4 p (j0, chd, calculateSimilarity b chd) hp rfl
                refine ⟨hd.1, ?_⟩
                intro hlt
                rw [Nat.add_zero] at hlt
                refine hd.2 (fun hx => ?_)
                rw [hx] at hlt
                omega
              | k + 1 =>
                simp only [List.get?_cons_succ] at hk
                rw [show j0 + (k + 1) = (j0 + 1) + k from by omega] at hkun ⊢
                exact ih2 p hp k blk' hk hkun
            · intro hn
              exact absurd (ih3 hn).1 (by simp)
            · intro p q' hp hq'
              have hqq : q' = q := (Option.some.inj hq').symm
              rw [hqq]
              have hd := ih4 p (j0, chd, calculateSimilarity b chd) hp rfl
              exact ⟨by linarith [hd.1, hgt], fun _ => by linarith [hd.1, hgt]⟩
          · -- not strictly better: keep the accumulator
            rw [show bestFuzzyAux used b (chd :: rest) j0 (some q) =
                bestFuzzyAux used b rest (j0 + 1) (some q) from by
              rw [bestFuzzyAux_cons, if_neg (by rw [hu]; simp)]
              simp only
              rw [if_pos hth, if_neg hgt]]
            obtain ⟨ih1, ih2, ih3, ih4⟩ := bestFuzzyAux_spec used b rest (j0 + 1) (some q)
              (fun q' hq' => by
                have hqq : q' = q := (Option.some.inj hq').symm
                rw [hqq]
                exact ⟨by have := (h0 q rfl).1; omega, (h0 q rfl).2⟩)
            have hsimle : calculateSimilarity b chd ≤ q.2.2 := not_lt.1 hgt
            refine ⟨?_, ?_, ?_, ?_⟩
            · intro p hp
              rcases ih1 p hp with hb | ⟨hge, hget, hun, hsim, hth'⟩
              · exact Or.inl hb
              · refine Or.inr ⟨by omega, ?_, hun, hsim, hth'⟩
                rw [show p.1 - j0 = (p.1 - (j0 + 1)) + 1 from by omega]
                simpa using hget
            · intro p hp k blk' hk hkun
              match k with
              | 0 =>
                simp only [List.get?_cons_zero, Option.some.injEq] at hk
                subst hk
                have hd := ih4 p q hp rfl
                refine ⟨le_trans hsimle hd.1, ?_⟩
                intro hlt
                rw [Nat.add_zero] at hlt
                by_cases hpq : p = q
                · exfalso
                  have := (h0 q rfl).1
                  rw [hpq] at hlt
                  omega
                · exact lt_of_le_of_lt hsimle (hd.2 hpq)
              | k + 1 =>
                simp only [List.get?_cons_succ] at hk
                rw [show j0 + (k + 1) = (j0 + 1) + k from by omega] at hkun ⊢
                exact ih2 p hp k blk' hk hkun
            · intro hn
              exact absurd (ih3 hn).1 (by simp)
            · intro p q' hp hq'
              have hqq : q' = q := (Option.some.inj hq').symm
              rw [hqq]
              exact ih4 p q hp rfl
      · -- candidate below the threshold: skip it
        rw [show bestFuzzyAux used b (chd :: rest) j0 best =
            bestFuzzyAux used b rest (j0 + 1) best from by
          rw [bestFuzzyAux_cons, if_neg (by rw [hu]; simp)]
          simp only
          rw [if_neg hth]]
        obtain ⟨ih1, ih2, ih3, ih4⟩ := bestFuzzyAux_spec used b rest (j0 + 1) best
          (fun q hq => ⟨by have := (h0 q hq).1; omega, (h0 q hq).2⟩)
        have hlt : calculateSimilarity b chd < SIMILARITY_THRESHOLD := not_le.1 hth
        refine ⟨?_, ?_, ?_, ih4⟩
        · intro p hp
          rcases ih1 p hp with hb | ⟨hge, hget, hun, hsim, hth'⟩
          · exact Or.inl hb
          · refine Or.inr ⟨by omega, ?_, hun, hsim, hth'⟩
            rw [show p.1 - j0 = (p.1 - (j0 + 1)) + 1 from by omega]
            simpa using hget
        · intro p hp k blk' hk hkun
          have hpth : p.2.2 ≥ SIMILARITY_THRESHOLD := by
            rcases ih1 p hp with hb | ⟨_, _, _, _, hth'⟩
            · exact (h0 p hb).2.2
            · exact hth'
          match k with
          | 0 =>
            simp only [List.get?_cons_zero, Option.some.injEq] at hk
            subst hk
            exact ⟨le_trans (le_of_lt hlt) hpth, fun _ => lt_of_lt_of_le hlt hpth⟩
          | k + 1 =>
            simp only [List.get?_cons_succ] at hk
            rw [show j0 + (k + 1) = (j0 + 1) + k from by omega] at hkun ⊢
            exact ih2 p hp k blk' hk hkun
        · intro hn
          obtain ⟨hbn, hrest⟩ := ih3 hn
          refine ⟨hbn, ?_⟩
          intro k blk' hk hkun
          match k with
          | 0 =>
            simp only [List.get?_cons_zero, Option.some.injEq] at hk
            subst hk
            exact hlt
          | k + 1 =>
            simp only [List.get?_cons_succ] at hk
            rw [show j0 + (k + 1) = (j0 + 1) + k from by omega] at hkun
            exact hrest k blk' hk hkun

/-- The engine similarity is exactly the spec-side Dice coefficient. -/
theorem calculateSimilarity_eq_dice (b1 b2 : Block) :
    calculateSimilarity b1 b2 = diceSpecSimilarity b1 b2 := by
  unfold calculateSimilarity diceSpecSimilarity
  by_cases h1 : normalizeText b1.text = normalizeText b2.text
  · rw [if_pos h1, if_pos h1]
  · rw [if_neg h1, if_neg h1]
    by_cases h2 : normalizeText b1.text = "" ∨ normalizeText b2.text = ""
    · rw [if_pos h2, if_pos h2]
    · rw [if_neg h2, if_neg h2]
      have hcard : ∀ t : String, ((splitWS t).toFinset.card : ℚ) =
          ((splitWS t).dedup.length : ℚ) := by
        intro t
        rw [List.card_toFinset]
      have hfilter : ((splitWS (normalizeText b1.text)).dedup.filter
            (fun w => (splitWS (normalizeText b2.text)).dedup.contains w)).toFinset =
          (splitWS (normalizeText b1.text)).toFinset ∩
            (splitWS (normalizeText b2.text)).toFinset := by
        ext w
        simp [List.mem_toFinset, List.mem_filter, List.mem_dedup, List.elem_iff,
          Finset.mem_inter]
      have hnodup : ((splitWS (normalizeText b1.text)).dedup.filter
          (fun w => (splitWS (normalizeText b2.text)).dedup.contains w)).Nodup :=
        (List.nodup_dedup _).filter _
      have hlen : (((splitWS (normalizeText b1.text)).toFinset ∩
            (splitWS (normalizeText b2.text)).toFinset).card : ℚ) =
          (((splitWS (normalizeText b1.text)).dedup.filter
            (fun w => (splitWS (normalizeText b2.text)).dedup.contains w)).length : ℚ) := by
        rw [← hfilter, List.card_toFinset, hnodup.dedup]
      simp only [hcard, hlen]

/-- Characterization of `bestFuzzy` over the whole current block list. -/
theorem bestFuzzy_spec (cb : List Block) (used : List Nat) (b : Block) :
    (∀ p : Nat × Block × ℚ, bestFuzzy cb used b = some p →
      (cb.get? p.1 = some p.2.1 ∧ used.contains p.1 = false ∧
        p.2.2 = calculateSimilarity b p.2.1 ∧ p.2.2 ≥ SIMILARITY_THRESHOLD ∧
        (∀ k blk', cb.get? k = some blk' → used.contains k = false →
          calculateSimilarity b blk' ≤ p.2.2 ∧
            (k < p.1 → calculateSimilarity b blk' < p.2.2)))) ∧
    (bestFuzzy cb used b = none →
      ∀ k blk', cb.get? k = some blk' → used.contains k = false →
        calculateSimilarity b blk' < SIMILARITY_THRESHOLD) := by
  obtain ⟨h1, h2, h3, _⟩ := bestFuzzyAux_spec used b cb 0 none (fun q hq => by simp at hq)
  constructor
  · intro p hp
    rcases h1 p hp with hb | ⟨_, hget, hun, hsim, hth⟩
    · simp at hb
    · rw [Nat.sub_zero] at hget
      refine ⟨hget, hun, hsim, hth, ?_⟩
      intro k blk' hk hkun
      have := h2 p hp k blk' hk (by rw [Nat.zero_add]; exact hkun)
      rw [Nat.zero_add] at this
      exact this
  · intro hn k blk' hk hkun
    have := (h3 hn).2 k blk' hk (by rw [Nat.zero_add]; exact hkun)
    exact this

/-- One-step unfolding of `fuzzyGo`. -/
theorem fuzzyGo_cons (cb : List Block) (i : Nat) (b : Block)
    (rest : List (Nat × Block)) (used : List Nat) :
    fuzzyGo cb ((i, b) :: rest) used =
      match bestFuzzy cb used b with
      | some (j, c, sim) =>
        let r := fuzzyGo cb rest (used ++ [j])
        ⟨(some i, some j) :: r.alignment,
          fuzzyDecision i j b c sim :: r.decisions, r.used⟩
      | none =>
        let r := fuzzyGo cb rest used
        ⟨(some i, none) :: r.alignment,
          deleteDecision i b (bestCandidate cb used b) :: r.decisions, r.used⟩ := rfl

/-- C5: the fuzzy-pass similarity is the spec-side Dice coefficient (1.0 on
identical normalized text, 0.0 when either side is empty), the threshold is
exactly one half (so exactly 50% overlap qualifies), the selected current
block is an unused one of maximal similarity at or above the threshold and
yields the fuzzy pairing, and when no unused block reaches the threshold
(every unused similarity is strictly below one half) the original becomes a
delete pairing. -/
theorem fuzzy_pass_selection (cb : List Block) (used : List Nat) (b : Block)
    (i : Nat) (rest : List (Nat × Block)) :
    (∀ b1 b2 : Block, calculateSimilarity b1 b2 = diceSpecSimilarity b1 b2) ∧
    SIMILARITY_THRESHOLD = 1 / 2 ∧
    (∀ p : Nat × Block × ℚ, bestFuzzy cb used b = some p →
      cb.get? p.1 = some p.2.1 ∧ used.contains p.1 = false ∧
      p.2.2 = calculateSimilarity b p.2.1 ∧ p.2.2 ≥ 1 / 2 ∧
      (∀ k blk', cb.get? k = some blk' → used.contains k = false →
        calculateSimilarity b blk' ≤ p.2.2) ∧
      (fuzzyGo cb ((i, b) :: rest) used).alignment.head? = some (some i, some p.1)) ∧
    (bestFuzzy cb used b = none →
      (∀ k blk', cb.get? k = some blk' → used.contains k = false →
        calculateSimilarity b blk' < 1 / 2) ∧
      (fuzzyGo cb ((i, b) :: rest) used).alignment.head? = some (some i, none)) := by
  have hth : SIMILARITY_THRESHOLD = 1 / 2 := by
    unfold SIMILARITY_THRESHOLD
    rw [Rat.mkRat_eq_div]
    norm_num
  obtain ⟨hsome, hnone⟩ := bestFuzzy_spec cb used b
  refine ⟨calculateSimilarity_eq_dice, hth, ?_, ?_⟩
  · intro p hp
    obtain ⟨hget, hun, hsim, hge, hdom⟩ := hsome p hp
    obtain ⟨j, blk, s⟩ := p
    refine ⟨hget, hun, hsim, by rw [← hth]; exact hge,
      fun k blk' hk hkun => (hdom k blk' hk hkun).1, ?_⟩
    rw [fuzzyGo_cons, hp]
    rfl
  · intro hn
    refine ⟨fun k blk' hk hkun => by rw [← hth]; exact hnone hn k blk' hk hkun, ?_⟩
    rw [fuzzyGo_cons, hn]
    rfl

/-- Witness for C5 at concrete blocks with an empty current side. -/
theorem fuzzy_pass_selection_witness :
    (calculateSimilarity sampleBlockA sampleBlockB =
      diceSpecSimilarity sampleBlockA sampleBlockB) ∧
    (fuzzyGo [] [(0, sampleBlockA)] []).alignment.head? = some (some 0, none) :=
  ⟨(fuzzy_pass_selection [] [] sampleBlockA 0 []).1 sampleBlockA sampleBlockB,
    ((fuzzy_pass_selection [] [] sampleBlockA 0 []).2.2.2 rfl).2⟩

/-- `groupGo` on the empty list. -/
theorem groupGo_nil : ∀ fuel : Nat, groupGo fuel [] = []
  | 0 => rfl
  | _ + 1 => rfl

/-- One-step unfolding of `groupGo` with positive fuel. -/
theorem groupGo_cons (fuel : Nat) (c : Change) (rest : List Change) :
    groupGo (fuel + 1) (c :: rest) =
      if c.added || c.removed then
        if shouldGroup (findChangeSpan (c :: rest)).1 then
          .phraseReplace
              (trimJS (String.join (collectParts (findChangeSpan (c :: rest)).1).1))
              (trimJS (String.join (collectParts (findChangeSpan (c :: rest)).1).2))
            :: groupGo fuel (findChangeSpan (c :: rest)).2
        else .word c :: groupGo fuel rest
      else .word c :: groupGo fuel rest := rfl

/-- A changed head makes the span scan consume it and restart the gap. -/
theorem findSpanEnd_cons_changed {c : Change} (rest : List Change) (g : Nat)
    (hc : (c.added || c.removed) = true) :
    findSpanEnd (c :: rest) g = 1 + findSpanEnd rest 0 := by
  show (if c.added || c.removed then 1 + findSpanEnd rest 0 else _) = _
  rw [if_pos hc]

/-- The remainder after a changed-head span is a suffix of the tail. -/
theorem findChangeSpan_snd_length {c : Change} (rest : List Change)
    (hc : (c.added || c.removed) = true) :
    (findChangeSpan (c :: rest)).2.length ≤ rest.length := by
  unfold findChangeSpan
  rw [findSpanEnd_cons_changed rest 0 hc]
  simp

/-- The fuel is irrelevant once it covers the list length. -/
theorem groupGo_congr :
    ∀ (f1 : Nat) (l : List Change) (f2 : Nat),
      l.length ≤ f1 → l.length ≤ f2 → groupGo f1 l = groupGo f2 l
  | 0, l, f2, h1, h2 => by
    have : l = [] := List.length_eq_zero.1 (by omega)
    subst this
    rw [groupGo_nil, groupGo_nil]
  | f + 1, l, f2, h1, h2 => by
    cases l with
    | nil => rw [groupGo_nil, groupGo_nil]
    | cons c rest =>
      cases f2 with
      | zero => simp at h2
      | succ g =>
        rw [groupGo_cons, groupGo_cons]
        by_cases hc : (c.added || c.removed) = true
        · rw [if_pos hc, if_pos hc]
          by_cases hs : shouldGroup (findChangeSpan (c :: rest)).1 = true
          · rw [if_pos hs, if_pos hs]
            have hlen := findChangeSpan_snd_length rest hc
            rw [groupGo_congr f (findChangeSpan (c :: rest)).2 g
              (by simp at h1; omega) (by simp at h2; omega)]
          · rw [if_neg hs, if_neg hs]
            rw [groupGo_congr f rest g (by simp at h1; omega) (by simp at h2; omega)]
        · rw [if_neg hc, if_neg hc]
          rw [groupGo_congr f rest g (by simp at h1; omega) (by simp at h2; omega)]

/-- Equation: `groupConsecutiveChanges` on an unchanged head. -/
theorem groupConsecutiveChanges_cons_unchanged {c : Change} (rest : List Change)
    (hc : (c.added || c.removed) = false) :
    groupConsecutiveChanges (c :: rest) = .word c :: groupConsecutiveChanges rest := by
  unfold groupConsecutiveChanges
  rw [show (c :: rest).length = rest.length + 1 from rfl, groupGo_cons,
    if_neg (by rw [hc]; simp)]

/-- Equation: `groupConsecutiveChanges` on a changed head whose span fails the
grouping gate. -/
theorem groupConsecutiveChanges_cons_ungrouped {c : Change} (rest : List Change)
    (hc : (c.added || c.removed) = true)
    (hs : ¬ shouldGroup (findChangeSpan (c :: rest)).1 = true) :
    groupConsecutiveChanges (c :: rest) = .word c :: groupConsecutiveChanges rest := by
  unfold groupConsecutiveChanges
  rw [show (c :: rest).length = rest.length + 1 from rfl, groupGo_cons,
    if_pos hc, if_neg hs]

/-- Equation: `groupConsecutiveChanges` on a changed head whose span passes
the grouping gate. -/
theorem groupConsecutiveChanges_cons_grouped {c : Change} (rest : List Change)
    (hc : (c.added || c.removed) = true)
    (hs : shouldGroup (findChangeSpan (c :: rest)).1 = true) :
    groupConsecutiveChanges (c :: rest) =
      .phraseReplace
          (trimJS (String.join (collectParts (findChangeSpan (c :: rest)).1).1))
          (trimJS (String.join (collectParts (findChangeSpan (c :: rest)).1).2))
        :: groupConsecutiveChanges (findChangeSpan (c :: rest)).2 := by
  unfold groupConsecutiveChanges
  rw [show (c :: rest).length = rest.length + 1 from rfl, groupGo_cons,
    if_pos hc, if_pos hs]
  rw [groupGo_congr rest.length (findChangeSpan (c :: rest)).2
    (findChangeSpan (c :: rest)).2.length (findChangeSpan_snd_length rest hc) (le_refl _)]

/-- The collection loop splits an accepted span into its non-added values
(deleted side) and non-removed values (inserted side), keeping unchanged
values verbatim on both sides, provided no segment carries both flags. -/
theorem collectParts_eq :
    ∀ (l : List Change), (∀ c ∈ l, ¬(c.added = true ∧ c.removed = true)) →
    collectParts l = ((l.filter (fun c => !c.added)).map (fun c => c.value),
      (l.filter (fun c => !c.removed)).map (fun c => c.value))
  | [], _ => rfl
  | c :: rest, hone => by
    have ih := collectParts_eq rest (fun x hx => hone x (List.mem_cons_of_mem c hx))
    show (let r := collectParts rest
      if c.removed then (c.value :: r.1, r.2)
      else if c.added then (r.1, c.value :: r.2)
      else (c.value :: r.1, c.value :: r.2)) = _
    rw [ih]
    by_cases hr : c.removed = true
    · have ha : c.added = false := by
        by_contra hcon
        simp only [Bool.not_eq_false] at hcon
        exact hone c (List.mem_cons_self c rest) ⟨hcon, hr⟩
      rw [if_pos hr]
      rw [List.filter_cons_of_pos (by rw [ha]; rfl), List.filter_cons_of_neg (by rw [hr]; simp)]
      simp
    · simp only [Bool.not_eq_true] at hr
      rw [if_neg (by rw [hr]; simp)]
      by_cases ha : c.added = true
      · rw [if_pos ha]
        rw [List.filter_cons_of_neg (by rw [ha]; simp), List.filter_cons_of_pos (by rw [hr]; rfl)]
        simp
      · simp only [Bool.not_eq_true] at ha
        rw [if_neg (by rw [ha]; simp)]
        rw [List.filter_cons_of_pos (by rw [ha]; rfl), List.filter_cons_of_pos (by rw [hr]; rfl)]
        simp

/-- An unchanged head either breaks the span (gap overflow) or is consumed
with its words added to the gap. -/
theorem findSpanEnd_cons_unchanged {c : Change} (rest : List Change) (g : Nat)
    (hc : (c.added || c.removed) = false) :
    findSpanEnd (c :: rest) g =
      if g + segWordCount c.value > MAX_UNCHANGED_GAP then 0
      else 1 + findSpanEnd rest (g + segWordCount c.value) := by
  show (if c.added || c.removed then _ else _) = _
  rw [if_neg (by rw [hc]; simp)]

/-- Word count of a span extended on the left. -/
theorem spanTotalWords_cons (c : Change) (l : List Change) :
    spanTotalWords (c :: l) = segWordCount c.value + spanTotalWords l := by
  simp [spanTotalWords]

/-- A span's changed words never exceed its total words. -/
theorem spanChangedWords_le (span : List Change) :
    spanChangedWords span ≤ spanTotalWords span := by
  unfold spanChangedWords spanTotalWords
  exact List.Sublist.sum_le_sum
    (List.Sublist.map _ (List.filter_sublist span)) (fun a _ => Nat.zero_le a)

/-- Gap invariant of the span scan: any all-unchanged contiguous stretch of
the returned span totals at most `MAX_UNCHANGED_GAP` words (and at the very
front, together with the incoming gap). -/
theorem findSpanEnd_gap (l : List Change) :
    ∀ (g : Nat), g ≤ MAX_UNCHANGED_GAP →
    ∀ (pre mid post : List Change),
      l.take (findSpanEnd l g) = pre ++ mid ++ post →
      (∀ c ∈ mid, (c.added || c.removed) = false) →
      spanTotalWords mid ≤ MAX_UNCHANGED_GAP ∧
        (pre = [] → g + spanTotalWords mid ≤ MAX_UNCHANGED_GAP) := by
  induction l with
  | nil =>
    intro g hg pre mid post heq hmid
    rw [List.take_nil] at heq
    obtain ⟨h1, h2⟩ := List.append_eq_nil.1 heq.symm
    obtain ⟨h3, h4⟩ := List.append_eq_nil.1 h1
    subst h4
    exact ⟨by simp [spanTotalWords], fun _ => by simp [spanTotalWords]; omega⟩
  | cons c rest ih =>
    intro g hg pre mid post heq hmid
    by_cases hc : (c.added || c.removed) = true
    · rw [findSpanEnd_cons_changed rest g hc,
        show 1 + findSpanEnd rest 0 = findSpanEnd rest 0 + 1 from by omega,
        List.take_succ_cons] at heq
      cases pre with
      | nil =>
        cases mid with
        | nil =>
          exact ⟨by simp [spanTotalWords], fun _ => by simp [spanTotalWords]; omega⟩
        | cons c2 mid' =>
          simp only [List.nil_append, List.cons_append, List.cons.injEq] at heq
          obtain ⟨heq0, _⟩ := heq
          exact absurd (heq0 ▸ hmid c2 (List.mem_cons_self _ _)) (by rw [hc]; simp)
      | cons p1 pre' =>
        simp only [List.cons_append, List.cons.injEq] at heq
        obtain ⟨_, heq'⟩ := heq
        obtain ⟨h1, _⟩ := ih 0 (by omega) pre' mid post heq' hmid
        exact ⟨h1, fun h => by simp at h⟩
    · simp only [Bool.not_eq_true] at hc
      rw [findSpanEnd_cons_unchanged rest g hc] at heq
      by_cases hbig : g + segWordCount c.value > MAX_UNCHANGED_GAP
      · rw [if_pos hbig, List.take_zero] at heq
        obtain ⟨h1, h2⟩ := List.append_eq_nil.1 heq.symm
        obtain ⟨h3, h4⟩ := List.append_eq_nil.1 h1
        subst h4
        exact ⟨by simp [spanTotalWords], fun _ => by simp [spanTotalWords]; omega⟩
      · rw [if_neg hbig,
          show 1 + findSpanEnd rest (g + segWordCount c.value) =
            findSpanEnd rest (g + segWordCount c.value) + 1 from by omega,
          List.take_succ_cons] at heq
        have hgw : g + segWordCount c.value ≤ MAX_UNCHANGED_GAP := by omega
        cases pre with
        | nil =>
          cases mid with
          | nil =>
            exact ⟨by simp [spanTotalWords], fun _ => by simp [spanTotalWords]; omega⟩
          | cons c2 mid' =>
            simp only [List.nil_append, List.cons_append, List.cons.injEq] at heq
            obtain ⟨heq0, heq'⟩ := heq
            obtain ⟨_, h2⟩ := ih (g + segWordCount c.value) hgw
              [] mid' post (by simpa using heq')
              (fun x hx => hmid x (List.mem_cons_of_mem _ hx))
            have h2' := h2 rfl
            rw [← heq0, spanTotalWords_cons]
            exact ⟨by omega, fun _ => by omega⟩
        | cons p1 pre' =>
          simp only [List.cons_append, List.cons.injEq] at heq
          obtain ⟨_, heq'⟩ := heq
          obtain ⟨h1, _⟩ := ih (g + segWordCount c.value) hgw
            pre' mid post heq' hmid
          exact ⟨h1, fun h => by simp at h⟩

/-- The grouping gate, spelled out: density at least 3/5 over the words of
the span and at least `3` changed words. -/
theorem shouldGroup_iff (span : List Change) :
    shouldGroup span = true ↔
      ((spanChangedWords span : ℚ) / (spanTotalWords span : ℚ) ≥ 3 / 5 ∧
        spanChangedWords span ≥ 3) := by
  have hth : CHANGE_DENSITY_THRESHOLD = 3 / 5 := by
    unfold CHANGE_DENSITY_THRESHOLD
    rw [Rat.mkRat_eq_div]
    norm_num
  unfold shouldGroup
  simp only [Bool.and_eq_true, decide_eq_true_eq, ge_iff_le, hth, MIN_CHANGED_WORDS]
  by_cases ht : spanTotalWords span > 0
  · rw [if_pos ht]
  · rw [if_neg ht]
    have ht0 : spanTotalWords span = 0 := by omega
    have hc0 : spanChangedWords span = 0 := by
      have := spanChangedWords_le span
      omega
    rw [ht0, hc0]
    norm_num

/-- C7: the phrase grouper's constants are gap 1, density threshold 3/5 and
minimum 3 changed words; the grouping gate holds iff the span's density is at
least 3/5 and it has at least 3 changed words; any all-unchanged contiguous
stretch of a computed change span has at most 1 word (the gap bound); an
accepted span at a changed head is replaced by a single phrase replacement
whose deleted text joins the values of all non-added segments (so unchanged
segments verbatim) and whose inserted text joins the values of all
non-removed segments, both trimmed; a rejected span's head passes through
unmodified, as does an unchanged head. -/
theorem phrase_grouper_spec (c : Change) (rest : List Change) :
    (CHANGE_DENSITY_THRESHOLD = 3 / 5 ∧ MIN_CHANGED_WORDS = 3 ∧
      MAX_UNCHANGED_GAP = 1) ∧
    (∀ span : List Change, shouldGroup span = true ↔
      ((spanChangedWords span : ℚ) / (spanTotalWords span : ℚ) ≥ 3 / 5 ∧
        spanChangedWords span ≥ 3)) ∧
    (∀ pre mid post : List Change,
      (findChangeSpan (c :: rest)).1 = pre ++ mid ++ post →
      (∀ x ∈ mid, (x.added || x.removed) = false) →
      spanTotalWords mid ≤ MAX_UNCHANGED_GAP) ∧
    ((c.added || c.removed) = true →
      shouldGroup (findChangeSpan (c :: rest)).1 = true →
      (∀ x ∈ (findChangeSpan (c :: rest)).1, ¬(x.added = true ∧ x.removed = true)) →
      groupConsecutiveChanges (c :: rest) =
        .phraseReplace
          (trimJS (String.join ((((findChangeSpan (c :: rest)).1.filter
            (fun x => !x.added)).map (fun x => x.value)))))
          (trimJS (String.join ((((findChangeSpan (c :: rest)).1.filter
            (fun x => !x.removed)).map (fun x => x.value)))))
        :: groupConsecutiveChanges (findChangeSpan (c :: rest)).2) ∧
    ((c.added || c.removed) = true →
      shouldGroup (findChangeSpan (c :: rest)).1 = false →
      groupConsecutiveChanges (c :: rest) = .word c :: groupConsecutiveChanges rest) ∧
    ((c.added || c.removed) = false →
      groupConsecutiveChanges (c :: rest) = .word c :: groupConsecutiveChanges rest) := by
  refine ⟨⟨?_, rfl, rfl⟩, shouldGroup_iff, ?_, ?_, ?_, ?_⟩
  · unfold CHANGE_DENSITY_THRESHOLD
    rw [Rat.mkRat_eq_div]
    norm_num
  · intro pre mid post heq hmid
    exact (findSpanEnd_gap (c :: rest) 0 (by omega) pre mid post heq hmid).1
  · intro hc hs hone
    rw [groupConsecutiveChanges_cons_grouped rest hc hs, collectParts_eq _ hone]
  · intro hc hs
    exact groupConsecutiveChanges_cons_ungrouped rest hc (by simp [hs])
  · intro hc
    exact groupConsecutiveChanges_cons_unchanged rest hc

/-- C7 witness: the pass-through clause of `phrase_grouper_spec` applied to a
concrete one-segment word diff. -/
theorem phrase_grouper_spec_witness :
    groupConsecutiveChanges [{ value := "hello " }] =
      [.word { value := "hello " }] := by
  rw [(phrase_grouper_spec { value := "hello " } []).2.2.2.2.2 rfl]
  rfl

/-- Indices recorded by the hash-match scan lie in the scanned range. -/
theorem matchesForAux_mem_bound (h : String) :
    ∀ (l : List Block) (i : Nat) (p : Nat × Block),
      p ∈ matchesForAux h l i → i ≤ p.1 ∧ p.1 < i + l.length
  | [], i, p, hp => by simp [matchesForAux] at hp
  | b :: rest, i, p, hp => by
    rw [matchesForAux_cons] at hp
    by_cases hb : hashBlock b = h
    · rw [if_pos hb] at hp
      rcases List.mem_cons.1 hp with rfl | hp'
      · exact ⟨le_refl _, by simp⟩
      · have := matchesForAux_mem_bound h rest (i + 1) p hp'
        exact ⟨by omega, by simp only [List.length_cons]; omega⟩
    · rw [if_neg hb] at hp
      have := matchesForAux_mem_bound h rest (i + 1) p hp
      exact ⟨by omega, by simp only [List.length_cons]; omega⟩

/-- The exact pass's matched original indices together with its unmatched
original indices are exactly the processed index range, as a multiset. -/
theorem exactGo_fst_perm (cb : List Block) :
    ∀ (l : List Block) (i : Nat) (used : List Nat),
      ((exactGo cb l i used).alignment.filterMap Prod.fst ++
        (exactGo cb l i used).unmatched.map Prod.fst).Perm (List.range' i l.length)
  | [], i, used => by
    show (([] : List (Option Nat × Option Nat)).filterMap Prod.fst ++
      ([] : List (Nat × Block)).map Prod.fst).Perm (List.range' i 0)
    simp
  | b :: rest, i, used => by
    rw [show (b :: rest).length = rest.length + 1 from rfl, List.range'_succ]
    rcases hfind : (matchesFor cb (hashBlock b)).find?
        (fun p => !(used.contains p.1)) with _ | p
    · rw [exactGo_cons, hfind]
      show ((exactGo cb rest (i + 1) used).alignment.filterMap Prod.fst ++
        ((i, b) :: (exactGo cb rest (i + 1) used).unmatched).map Prod.fst).Perm _
      rw [List.map_cons]
      exact (List.perm_middle).trans ((exactGo_fst_perm cb rest (i + 1) used).cons i)
    · rw [exactGo_cons, hfind]
      show (((some i, some p.1) ::
          (exactGo cb rest (i + 1) (used ++ [p.1])).alignment).filterMap Prod.fst ++
        (exactGo cb rest (i + 1) (used ++ [p.1])).unmatched.map Prod.fst).Perm _
      rw [List.filterMap_cons_some (f := Prod.fst) rfl, List.cons_append]
      exact (exactGo_fst_perm cb rest (i + 1) (used ++ [p.1])).cons i

/-- The exact pass appends exactly its matched current indices to the used
list, in order. -/
theorem exactGo_used_eq (cb : List Block) :
    ∀ (l : List Block) (i : Nat) (used : List Nat),
      (exactGo cb l i used).used =
        used ++ (exactGo cb l i used).alignment.filterMap Prod.snd
  | [], i, used => by
    show used = used ++ ([] : List (Option Nat × Option Nat)).filterMap Prod.snd
    simp
  | b :: rest, i, used => by
    rcases hfind : (matchesFor cb (hashBlock b)).find?
        (fun p => !(used.contains p.1)) with _ | p
    · rw [exactGo_cons, hfind]
      show (exactGo cb rest (i + 1) used).used =
        used ++ (exactGo cb rest (i + 1) used).alignment.filterMap Prod.snd
      exact exactGo_used_eq cb rest (i + 1) used
    · rw [exactGo_cons, hfind]
      show (exactGo cb rest (i + 1) (used ++ [p.1])).used =
        used ++ (((some i, some p.1) ::
          (exactGo cb rest (i + 1) (used ++ [p.1])).alignment).filterMap Prod.snd)
      rw [List.filterMap_cons_some (f := Prod.snd) rfl,
        exactGo_used_eq cb rest (i + 1) (used ++ [p.1]), List.append_assoc]
      rfl

/-- The exact pass preserves distinctness and in-range validity of the used
current indices. -/
theorem exactGo_used_inv (cb : List Block) :
    ∀ (l : List Block) (i : Nat) (used : List Nat),
      used.Nodup → (∀ x ∈ used, x < cb.length) →
      (exactGo cb l i used).used.Nodup ∧
        ∀ x ∈ (exactGo cb l i used).used, x < cb.length
  | [], i, used, hnd, hlt => ⟨hnd, hlt⟩
  | b :: rest, i, used, hnd, hlt => by
    rcases hfind : (matchesFor cb (hashBlock b)).find?
        (fun p => !(used.contains p.1)) with _ | p
    · rw [exactGo_cons, hfind]
      exact exactGo_used_inv cb rest (i + 1) used hnd hlt
    · have hnotused : p.1 ∉ used := by
        have := List.find?_some hfind
        simp only [Bool.not_eq_true'] at this
        simpa [List.elem_iff] using this
      have hbound : p.1 < cb.length := by
        have hmem := List.mem_of_find?_eq_some hfind
        have := matchesForAux_mem_bound (hashBlock b) cb 0 p hmem
        omega
      rw [exactGo_cons, hfind]
      exact exactGo_used_inv cb rest (i + 1) (used ++ [p.1])
        (by simp [List.nodup_append, hnd, hnotused])
        (fun x hx => by
          rcases List.mem_append.1 hx with hx | hx
          · exact hlt x hx
          · simp at hx
            omega)

/-- Every unmatched original index yields exactly one fuzzy-pass pairing
carrying it on the original side, in order. -/
theorem fuzzyGo_fst_eq (cb : List Block) :
    ∀ (um : List (Nat × Block)) (used : List Nat),
      (fuzzyGo cb um used).alignment.filterMap Prod.fst = um.map Prod.fst
  | [], used => rfl
  | (i, b) :: rest, used => by
    rcases hbf : bestFuzzy cb used b with _ | ⟨j, c, sim⟩
    · rw [fuzzyGo_cons, hbf]
      show (((some i, none) :: (fuzzyGo cb rest used).alignment).filterMap Prod.fst) = _
      rw [List.filterMap_cons_some (f := Prod.fst) rfl, List.map_cons,
        fuzzyGo_fst_eq cb rest used]
    · rw [fuzzyGo_cons, hbf]
      show (((some i, some j) ::
        (fuzzyGo cb rest (used ++ [j])).alignment).filterMap Prod.fst) = _
      rw [List.filterMap_cons_some (f := Prod.fst) rfl, List.map_cons,
        fuzzyGo_fst_eq cb rest (used ++ [j])]

/-- The fuzzy pass appends exactly its matched current indices to the used
list, in order. -/
theorem fuzzyGo_used_eq (cb : List Block) :
    ∀ (um : List (Nat × Block)) (used : List Nat),
      (fuzzyGo cb um used).used =
        used ++ (fuzzyGo cb um used).alignment.filterMap Prod.snd
  | [], used => by
    show used = used ++ ([] : List (Option Nat × Option Nat)).filterMap Prod.snd
    simp
  | (i, b) :: rest, used => by
    rcases hbf : bestFuzzy cb used b with _ | ⟨j, c, sim⟩
    · rw [fuzzyGo_cons, hbf]
      show (fuzzyGo cb rest used).used =
        used ++ (((some i, none) :: (fuzzyGo cb rest used).alignment).filterMap Prod.snd)
      rw [List.filterMap_cons_none (f := Prod.snd) rfl]
      exact fuzzyGo_used_eq cb rest used
    · rw [fuzzyGo_cons, hbf]
      show (fuzzyGo cb rest (used ++ [j])).used =
        used ++ (((some i, some j) ::
          (fuzzyGo cb rest (used ++ [j])).alignment).filterMap Prod.snd)
      rw [List.filterMap_cons_some (f := Prod.snd) rfl,
        fuzzyGo_used_eq cb rest (used ++ [j]), List.append_assoc]
      rfl

/-- The fuzzy pass preserves distinctness and in-range validity of the used
current indices. -/
theorem fuzzyGo_used_inv (cb : List Block) :
    ∀ (um : List (Nat × Block)) (used : List Nat),
      used.Nodup → (∀ x ∈ used, x < cb.length) →
      (fuzzyGo cb um used).used.Nodup ∧
        ∀ x ∈ (fuzzyGo cb um used).used, x < cb.length
  | [], used, hnd, hlt => ⟨hnd, hlt⟩
  | (i, b) :: rest, used, hnd, hlt => by
    rcases hbf : bestFuzzy cb used b with _ | ⟨j, c, sim⟩
    · rw [fuzzyGo_cons, hbf]
      exact fuzzyGo_used_inv cb rest used hnd hlt
    · obtain ⟨hget, hun, -⟩ := (bestFuzzy_spec cb used b).1 (j, c, sim) hbf
      have hnotused : j ∉ used := by simpa [List.elem_iff] using hun
      have hbound : j < cb.length := by
        obtain ⟨hlt', -⟩ := List.get?_eq_some.1 hget
        exact hlt'
      rw [fuzzyGo_cons, hbf]
      exact fuzzyGo_used_inv cb rest (used ++ [j])
        (by simp [List.nodup_append, hnd, hnotused])
        (fun x hx => by
          rcases List.mem_append.1 hx with hx | hx
          · exact hlt x hx
          · simp at hx
            omega)

/-- One-step unfolding of `insertGo`. -/
theorem insertGo_cons (used : List Nat) (b : Block) (rest : List Block) (j : Nat) :
    insertGo used (b :: rest) j =
      (let r := insertGo used rest (j + 1)
       if used.contains j then r
       else ((none, some j) :: r.1, insertDecision j b :: r.2)) := rfl

/-- The insert step's pairings are exactly the unused current indices, in
order, each as an insert pairing. -/
theorem insertGo_pairs (used : List Nat) :
    ∀ (l : List Block) (s : Nat),
      (insertGo used l s).1 =
        ((List.range' s l.length).filter (fun x => !used.contains x)).map
          (fun j => ((none : Option Nat), (some j : Option Nat)))
  | [], s => rfl
  | b :: rest, s => by
    rw [insertGo_cons,
      show (b :: rest).length = rest.length + 1 from rfl, List.range'_succ]
    simp only []
    by_cases hu : used.contains s = true
    · rw [if_pos hu, List.filter_cons_of_neg (by rw [hu]; simp)]
      exact insertGo_pairs used rest (s + 1)
    · rw [if_neg hu, List.filter_cons_of_pos (by simp [Bool.not_eq_true] at hu ⊢; exact hu),
        List.map_cons]
      rw [insertGo_pairs used rest (s + 1)]

/-- A distinct in-range used list followed by the unused remainder of the
range is a permutation of the whole range. -/
theorem used_filter_perm (u r : List Nat) (hu : u.Nodup) (hr : r.Nodup)
    (hsub : ∀ x ∈ u, x ∈ r) :
    (u ++ r.filter (fun x => !u.contains x)).Perm r := by
  rw [List.perm_ext_iff_of_nodup ?_ hr]
  · intro x
    simp only [List.mem_append, List.mem_filter, Bool.not_eq_true']
    constructor
    · rintro (hx | ⟨hx, _⟩)
      · exact hsub x hx
      · exact hx
    · intro hx
      by_cases hxu : x ∈ u
      · exact Or.inl hxu
      · refine Or.inr ⟨hx, ?_⟩
        by_contra hcon
        simp only [Bool.not_eq_false] at hcon
        exact hxu (by simpa [List.elem_iff] using hcon)
  · rw [List.nodup_append]
    refine ⟨hu, hr.filter _, fun x hx hx2 => ?_⟩
    obtain ⟨-, hcon⟩ := List.mem_filter.1 hx2
    simp only [Bool.not_eq_true'] at hcon
    exact (by simpa [List.elem_iff] using hcon : x ∉ u) hx

/-- The final pairing list carries every original index exactly once on its
original side. -/
theorem alignBlocks_fst_perm (ob cb : List Block) :
    ((alignBlocks ob cb).1.filterMap Prod.fst).Perm (List.range ob.length) := by
  have h0 : (alignBlocks ob cb).1 = List.insertionSort pairRel
      ((exactGo cb ob 0 []).alignment ++
        (fuzzyGo cb (exactGo cb ob 0 []).unmatched (exactGo cb ob 0 []).used).alignment ++
        (insertGo (fuzzyGo cb (exactGo cb ob 0 []).unmatched
          (exactGo cb ob 0 []).used).used cb 0).1) := rfl
  rw [h0]
  refine ((List.perm_insertionSort pairRel _).filterMap Prod.fst).trans ?_
  rw [List.filterMap_append, List.filterMap_append, insertGo_pairs,
    fuzzyGo_fst_eq, List.filterMap_map]
  have hins : ((List.range' 0 cb.length).filter (fun x =>
      !(fuzzyGo cb (exactGo cb ob 0 []).unmatched
        (exactGo cb ob 0 []).used).used.contains x)).filterMap
      (Prod.fst ∘ fun j => ((none : Option Nat), (some j : Option Nat))) = [] := by
    simp [Function.comp]
  rw [hins, List.append_nil, List.range_eq_range']
  exact exactGo_fst_perm cb ob 0 []

/-- The final pairing list carries every current index exactly once on its
current side. -/
theorem alignBlocks_snd_perm (ob cb : List Block) :
    ((alignBlocks ob cb).1.filterMap Prod.snd).Perm (List.range cb.length) := by
  have h0 : (alignBlocks ob cb).1 = List.insertionSort pairRel
      ((exactGo cb ob 0 []).alignment ++
        (fuzzyGo cb (exactGo cb ob 0 []).unmatched (exactGo cb ob 0 []).used).alignment ++
        (insertGo (fuzzyGo cb (exactGo cb ob 0 []).unmatched
          (exactGo cb ob 0 []).used).used cb 0).1) := rfl
  have hexinv := exactGo_used_inv cb ob 0 [] List.nodup_nil (by simp)
  have hfzinv := fuzzyGo_used_inv cb (exactGo cb ob 0 []).unmatched
    (exactGo cb ob 0 []).used hexinv.1 hexinv.2
  have hused : (fuzzyGo cb (exactGo cb ob 0 []).unmatched (exactGo cb ob 0 []).used).used =
      (exactGo cb ob 0 []).alignment.filterMap Prod.snd ++
        (fuzzyGo cb (exactGo cb ob 0 []).unmatched
          (exactGo cb ob 0 []).used).alignment.filterMap Prod.snd := by
    rw [fuzzyGo_used_eq, exactGo_used_eq]
    simp
  rw [h0]
  refine ((List.perm_insertionSort pairRel _).filterMap Prod.snd).trans ?_
  rw [List.filterMap_append, List.filterMap_append, insertGo_pairs]
  have hins : (((List.range' 0 cb.length).filter (fun x =>
      !(fuzzyGo cb (exactGo cb ob 0 []).unmatched
        (exactGo cb ob 0 []).used).used.contains x)).map
      (fun j => ((none : Option Nat), (some j : Option Nat)))).filterMap Prod.snd =
      (List.range' 0 cb.length).filter (fun x =>
        !(fuzzyGo cb (exactGo cb ob 0 []).unmatched
          (exactGo cb ob 0 []).used).used.contains x) := by
    rw [List.filterMap_map]
    exact List.filterMap_some _
  rw [hins, ← hused, ← List.range_eq_range']
  exact used_filter_perm _ _ hfzinv.1 (List.nodup_range _)
    (fun x hx => List.mem_range.2 (hfzinv.2 x hx))

/-- Looking every index of a window of `big` up with `get?` recovers the
window. -/
theorem filterMap_get?_window {α : Type} (big : List α) :
    ∀ (l : List α) (s : Nat), (∀ k, big.get? (s + k) = l.get? k) →
      (List.range' s l.length).filterMap big.get? = l
  | [], s, _ => rfl
  | a :: l, s, hwin => by
    rw [show (a :: l).length = l.length + 1 from rfl, List.range'_succ]
    have h0 : big.get? s = some a := by
      have := hwin 0
      simpa using this
    rw [List.filterMap_cons_some (f := big.get?) h0]
    rw [filterMap_get?_window big l (s + 1) (fun k => by
      have := hwin (k + 1)
      rw [show s + 1 + k = s + (k + 1) from by omega]
      simpa using this)]

/-- Looking every index of `l` up with `get?` recovers `l`. -/
theorem filterMap_get?_range {α : Type} (l : List α) :
    (List.range l.length).filterMap l.get? = l := by
  rw [List.range_eq_range']
  exact filterMap_get?_window l l 0 (fun k => by simp)

/-- The assembler emits, in order, exactly the original-side blocks of its
pairings as `originalBlock`s and exactly the current-side blocks as
`currentBlock`s. -/
theorem mkBlockDiffs_proj (wdiff : String → String → List Change) :
    ∀ (ps : List (Option Block × Option Block)) (n : Nat),
      ((mkBlockDiffs wdiff ps n).1.filterMap (fun bd => bd.originalBlock) =
        ps.filterMap Prod.fst) ∧
      ((mkBlockDiffs wdiff ps n).1.filterMap (fun bd => bd.currentBlock) =
        ps.filterMap Prod.snd)
  | [], n => ⟨rfl, rfl⟩
  | (none, none) :: rest, n => by
    rw [mkBlockDiffs_cons_nil,
      List.filterMap_cons_none (f := Prod.fst) rfl,
      List.filterMap_cons_none (f := Prod.snd) rfl]
    exact mkBlockDiffs_proj wdiff rest n
  | (none, some c) :: rest, n => by
    obtain ⟨ih1, ih2⟩ := mkBlockDiffs_proj wdiff rest (n + 1)
    have h1 : (mkBlockDiffs wdiff ((none, some c) :: rest) n).1 =
        { type := .insert, currentBlock := some c,
          changeId := some (changeIdStr n) } :: (mkBlockDiffs wdiff rest (n + 1)).1 := by
      rw [mkBlockDiffs_cons_insert]
    rw [h1, List.filterMap_cons_none (f := Prod.fst) rfl,
      List.filterMap_cons_some (f := Prod.snd) rfl,
      List.filterMap_cons_none (f := fun (bd : BlockDiff) => bd.originalBlock) rfl,
      List.filterMap_cons_some (f := fun (bd : BlockDiff) => bd.currentBlock) rfl]
    exact ⟨ih1, by rw [ih2]⟩
  | (some o, none) :: rest, n => by
    obtain ⟨ih1, ih2⟩ := mkBlockDiffs_proj wdiff rest (n + 1)
    have h1 : (mkBlockDiffs wdiff ((some o, none) :: rest) n).1 =
        { type := .delete, originalBlock := some o,
          changeId := some (changeIdStr n) } :: (mkBlockDiffs wdiff rest (n + 1)).1 := by
      rw [mkBlockDiffs_cons_delete]
    rw [h1, List.filterMap_cons_some (f := Prod.fst) rfl,
      List.filterMap_cons_none (f := Prod.snd) rfl,
      List.filterMap_cons_some (f := fun (bd : BlockDiff) => bd.originalBlock) rfl,
      List.filterMap_cons_none (f := fun (bd : BlockDiff) => bd.currentBlock) rfl]
    exact ⟨by rw [ih1], ih2⟩
  | (some o, some c) :: rest, n => by
    rw [List.filterMap_cons_some (f := Prod.fst) rfl,
      List.filterMap_cons_some (f := Prod.snd) rfl]
    by_cases hc : o.text = c.text ∧ formatingsEqual o.formatting c.formatting = true
    · obtain ⟨ih1, ih2⟩ := mkBlockDiffs_proj wdiff rest n
      have h1 : (mkBlockDiffs wdiff ((some o, some c) :: rest) n).1 =
          { type := .unchanged, originalBlock := some o,
            currentBlock := some c } :: (mkBlockDiffs wdiff rest n).1 := by
        rw [mkBlockDiffs_cons_same wdiff o c rest n hc]
      rw [h1, List.filterMap_cons_some (f := fun (bd : BlockDiff) => bd.originalBlock) rfl,
        List.filterMap_cons_some (f := fun (bd : BlockDiff) => bd.currentBlock) rfl]
      exact ⟨by rw [ih1], by rw [ih2]⟩
    · obtain ⟨ih1, ih2⟩ := mkBlockDiffs_proj wdiff rest
        (if (wdiff o.text c.text).any (fun ch => ch.added || ch.removed) ||
          (diffFormatting o c (wdiff o.text c.text)).any (fun fc => fc.isFormatChange)
          then n + 1 else n)
      have h1 : (mkBlockDiffs wdiff ((some o, some c) :: rest) n).1 =
          { type := if (wdiff o.text c.text).any (fun ch => ch.added || ch.removed) ||
                (diffFormatting o c (wdiff o.text c.text)).any (fun fc => fc.isFormatChange)
              then .modify else .unchanged,
            originalBlock := some o, currentBlock := some c,
            wordDiff := some (wdiff o.text c.text),
            groupedDiff := some (groupConsecutiveChanges (wdiff o.text c.text)),
            formatDiff := some (diffFormatting o c (wdiff o.text c.text)),
            changeId := if (wdiff o.text c.text).any (fun ch => ch.added || ch.removed) ||
                (diffFormatting o c (wdiff o.text c.text)).any (fun fc => fc.isFormatChange)
              then some (changeIdStr n) else none } ::
            (mkBlockDiffs wdiff rest
              (if (wdiff o.text c.text).any (fun ch => ch.added || ch.removed) ||
                (diffFormatting o c (wdiff o.text c.text)).any (fun fc => fc.isFormatChange)
                then n + 1 else n)).1 := by
        rw [mkBlockDiffs_cons_diff wdiff o c rest n hc]
      rw [h1, List.filterMap_cons_some (f := fun (bd : BlockDiff) => bd.originalBlock) rfl,
        List.filterMap_cons_some (f := fun (bd : BlockDiff) => bd.currentBlock) rfl]
      exact ⟨by rw [ih1], by rw [ih2]⟩

/-- C1: for every pair of input documents, the blocks recovered from the
`originalBlock` fields of the returned `BlockDiff`s are exactly the original
document's blocks, each exactly once (as a permutation), and the blocks
recovered from the `currentBlock` fields are exactly the current document's
blocks, each exactly once: no block is dropped and none is duplicated. -/
theorem block_coverage (e : DiffEngine) (wdiff : String → String → List Change)
    (o c : DocumentAST) :
    (((e.diffDocuments wdiff o c).blockDiffs.filterMap
        (fun bd => bd.originalBlock)).Perm o.blocks) ∧
    (((e.diffDocuments wdiff o c).blockDiffs.filterMap
        (fun bd => bd.currentBlock)).Perm c.blocks) := by
  have hbd : (e.diffDocuments wdiff o c).blockDiffs =
      (mkBlockDiffs wdiff ((alignBlocks o.blocks c.blocks).1.map
        (toBlockPair o.blocks c.blocks)) 0).1 := rfl
  obtain ⟨hp1, hp2⟩ := mkBlockDiffs_proj wdiff
    ((alignBlocks o.blocks c.blocks).1.map (toBlockPair o.blocks c.blocks)) 0
  constructor
  · rw [hbd, hp1, List.filterMap_map]
    have hcomp : (Prod.fst ∘ toBlockPair o.blocks c.blocks) =
        fun p => p.1.bind o.blocks.get? := rfl
    rw [hcomp]
    have h2 := (alignBlocks_fst_perm o.blocks c.blocks).filterMap o.blocks.get?
    rw [List.filterMap_filterMap, filterMap_get?_range] at h2
    exact h2
  · rw [hbd, hp2, List.filterMap_map]
    have hcomp : (Prod.snd ∘ toBlockPair o.blocks c.blocks) =
        fun p => p.2.bind c.blocks.get? := rfl
    rw [hcomp]
    have h2 := (alignBlocks_snd_perm o.blocks c.blocks).filterMap c.blocks.get?
    rw [List.filterMap_filterMap, filterMap_get?_range] at h2
    exact h2
